import Mathlib

/-!
Verification of the two-stage GHArchive ingestion/cleaning pipeline.

Shallow embedding of the Python sources:
- `src/dataset_readers/gharchive/client.py`  (archive client)
- `src/dataset_readers/gharchive/storage.py` (record store / streaming writer)
- `src/dataset_readers/gharchive/extractor.py` (extraction orchestrator)
- `src/dataset_readers/gharchive/models.py`  (event models / text extraction)
- `src/preprocessing/text_cleaner.py`        (text cleaning helpers)
- `src/preprocessing/filters.py`             (bot/CI and trivial-comment filters)
- `src/preprocessing/workflow.py`            (transform workflow)
- `src/preprocessing/pipeline.py`            (cleaning orchestrator)

Decoded JSON values are modelled by the inductive type `J`; machine-level details
that the claims do not touch (HTTP transport, gzip, SQLite file format) are
abstracted as injected capabilities, exactly as the spec's scope section treats
them.
-/

/-- Decoded JSON-like value, as produced by `json.loads`. Python `dict`s are
modelled as association lists with unique keys (first match wins on lookup). -/
inductive J where
  | null : J
  | bool (b : Bool) : J
  | int (n : Int) : J
  | str (s : String) : J
  | arr (xs : List J) : J
  | obj (fields : List (String × J)) : J
  deriving Repr

/-- Python exception kinds relevant to the embedded code paths. -/
inductive PyErr where
  | attrError : PyErr
  | typeError : PyErr
  | valueError : PyErr
  | keyError : PyErr
  deriving Repr, DecidableEq

/-- Python truthiness of a decoded JSON value (`bool(x)`). -/
def J.truthy : J → Bool
  | .null => false
  | .bool b => b
  | .int n => n != 0
  | .str s => s ≠ ""
  | .arr xs => !xs.isEmpty
  | .obj fs => !fs.isEmpty

/-- `d.get(k)` on a Python dict: `none` when the key is absent. -/
def jGet (fields : List (String × J)) (k : String) : Option J :=
  fields.lookup k

/-- `d.get(k, dflt)`. -/
def jGetD (fields : List (String × J)) (k : String) (dflt : J) : J :=
  (jGet fields k).getD dflt

/-- `x or y` in Python (value-level short-circuit or). -/
def pyOr (x y : J) : J := if x.truthy then x else y

/-- `e.get(k)` where `e` may not be a dict: raises `AttributeError` unless
`e` is a dict (mirrors Python attribute lookup on non-dicts). -/
def pyGet (e : J) (k : String) : Except PyErr (Option J) :=
  match e with
  | .obj fs => .ok (jGet fs k)
  | _ => .error .attrError

/-- `e.get(k, dflt)` with the same `AttributeError` behaviour. -/
def pyGetD (e : J) (k : String) (dflt : J) : Except PyErr J :=
  match e with
  | .obj fs => .ok (jGetD fs k dflt)
  | _ => .error .attrError

/-- `(x or {}).get(k)`-style access: a falsy value is replaced by `{}` first
(so `None` becomes the empty dict); a truthy non-dict raises. -/
def pyGetOrEmpty (x : J) (k : String) : Except PyErr (Option J) :=
  pyGet (pyOr x (.obj [])) k

/-- `str(x)` for decoded JSON values. String/int/bool/None follow Python
exactly; the renderings of lists and dicts (never exercised by the pipeline's
key paths) are a simplified stand-in for Python `repr`. -/
def pyStr : J → String
  | .null => "None"
  | .bool b => if b then "True" else "False"
  | .int n => toString n
  | .str s => s
  | .arr _ => "[...]"
  | .obj _ => "{...}"

/-! ## Text cleaning (`src/preprocessing/text_cleaner.py`) -/

/-- Python default whitespace for `str.strip` / `str.split` (ASCII subset;
the Unicode whitespace extras behave identically and are elided). -/
def pyIsSpace (c : Char) : Bool :=
  c = ' ' || c = '\t' || c = '\n' || c = '\r' || c = Char.ofNat 11 || c = Char.ofNat 12

/-- `str.strip()` with no argument: drop leading and trailing whitespace. -/
def pyStrip (s : String) : String :=
  String.mk (((s.data.dropWhile pyIsSpace).reverse.dropWhile pyIsSpace).reverse)

/-- `str.lower()` (ASCII case mapping; the pipeline's vocabularies are ASCII). -/
def pyLower (s : String) : String := String.mk (s.data.map Char.toLower)

/-- Split a character list at `'\n'`, keeping empty pieces. -/
def splitOnNl : List Char → List (List Char)
  | [] => [[]]
  | c :: rest =>
    if c = '\n' then [] :: splitOnNl rest
    else
      match splitOnNl rest with
      | [] => [[c]]
      | l :: ls => (c :: l) :: ls

/-- `str.splitlines()` restricted to `'\n'` terminators: no trailing empty
piece when the string ends in a newline, and `[]` for the empty string
(the other Unicode line terminators Python also splits on are elided). -/
def splitLines (s : String) : List String :=
  if s.data = [] then []
  else if s.data.getLast? = some '\n' then ((splitOnNl s.data).map String.mk).dropLast
  else (splitOnNl s.data).map String.mk

/-- Word character for the `\w` class (alphanumeric or underscore; Unicode
categories approximated by Lean's `Char.isAlphanum`). -/
def isWordChar (c : Char) : Bool := c.isAlphanum || c = '_'

/-- A minimal regular-expression syntax, enough for `_DIFF_LINE_RE`. -/
inductive RE where
  | emp : RE
  | eps : RE
  | cls (p : Char → Bool) : RE
  | cat (a b : RE) : RE
  | alt (a b : RE) : RE
  | star (a : RE) : RE

/-- Does the expression accept the empty string? -/
def RE.nullable : RE → Bool
  | .emp => false
  | .eps => true
  | .cls _ => false
  | .cat a b => a.nullable && b.nullable
  | .alt a b => a.nullable || b.nullable
  | .star _ => true

/-- Brzozowski derivative with respect to one character. -/
def RE.deriv : RE → Char → RE
  | .emp, _ => .emp
  | .eps, _ => .emp
  | .cls p, c => if p c then .eps else .emp
  | .cat a b, c => if a.nullable then .alt (.cat (a.deriv c) b) (b.deriv c)
                   else .cat (a.deriv c) b
  | .alt a b, c => .alt (a.deriv c) (b.deriv c)
  | .star a, c => .cat (a.deriv c) (.star a)

/-- `re.match` semantics: does some prefix of the input match the expression? -/
def RE.matchPre (r : RE) : List Char → Bool
  | [] => r.nullable
  | c :: rest => r.nullable || (r.deriv c).matchPre rest

/-- `_DIFF_LINE_RE = re.compile(r"^[\+\-]\s?.*$", re.MULTILINE)`, compiled.
`^` is the `re.match` anchor; the trailing `$` (which in MULTILINE mode matches
at end of string or before `'\n'`) is always dischargeable after `.*` stops at
the line end, so it adds no constraint to the boolean match result. -/
def diffLineRE : RE :=
  .cat (.cls fun c => c = '+' || c = '-')
    (.cat (.alt .eps (.cls pyIsSpace)) (.star (.cls fun c => c ≠ '\n')))

/-- `strip_diff_snippets`: drop the lines whose stripped form matches
`_DIFF_LINE_RE`, rejoin with `'\n'`. -/
def strip_diff_snippets (s : String) : String :=
  if s = "" then ""
  else String.intercalate "\n"
    ((splitLines s).filter (fun line => !(diffLineRE.matchPre (pyStrip line).data)))

/-- `"```"` fence literal: consume it or fail. -/
def matchFence : List Char → Option (List Char)
  | '`' :: '`' :: '`' :: rest => some rest
  | _ => none

/-- Lazy `.*?` up to the closing fence (DOTALL: consumes newlines too):
first position where `"```"` occurs wins; remainder after it is returned. -/
def findClose : List Char → Option (List Char)
  | [] => none
  | c :: rest =>
    match matchFence (c :: rest) with
    | some r => some r
    | none => findClose rest

/-- One attempted match of `_CODE_BLOCK_RE = ```[\w]*\n.*?``` ` at the current
position: opening fence, a maximal `\w` run (greedy, and forced since `\w`
excludes `'\n'`), a newline, then lazily up to the closing fence. -/
def tryCodeBlock (cs : List Char) : Option (List Char) :=
  match matchFence cs with
  | none => none
  | some rest1 =>
    match rest1.dropWhile isWordChar with
    | '\n' :: rest3 => findClose rest3
    | _ => none

/-- One attempted match of `_IMAGE_MD_RE = !\[[^\]]*\]\([^)]*\)`. -/
def tryImageMd : List Char → Option (List Char)
  | '!' :: '[' :: rest =>
    (match rest.dropWhile (fun c => c ≠ ']') with
     | ']' :: '(' :: inner =>
       (match inner.dropWhile (fun c => c ≠ ')') with
        | ')' :: e => some e
        | _ => none)
     | _ => none)
  | _ => none

/-- One attempted match of `_IMAGE_LINK_RE = \[image\]\([^)]*\)`
(case-insensitive on the literal `image`). -/
def tryImageLink : List Char → Option (List Char)
  | '[' :: a :: b :: c :: d :: e :: ']' :: '(' :: rest =>
    if [a.toLower, b.toLower, c.toLower, d.toLower, e.toLower] = ['i', 'm', 'a', 'g', 'e'] then
      (match rest.dropWhile (fun x => x ≠ ')') with
       | ')' :: r => some r
       | _ => none)
    else none
  | _ => none

/-- `re.sub(pattern, " ", text)` as a left-to-right scan: at each position try
the pattern; on a match emit one space and resume after it, else keep the
character. `fuel` is an upper bound on the remaining length (every successful
match consumes at least two characters, so `fuel = cs.length` at the top-level
call always suffices and the `0` case is reached only on `[]`). -/
def subScan (tryM : List Char → Option (List Char)) : Nat → List Char → List Char
  | 0, _ => []
  | _ + 1, [] => []
  | n + 1, c :: rest =>
    match tryM (c :: rest) with
    | some r => ' ' :: subScan tryM n r
    | none => c :: subScan tryM n rest

/-- `strip_code_blocks`. -/
def strip_code_blocks (s : String) : String :=
  if s = "" then "" else String.mk (subScan tryCodeBlock s.data.length s.data)

/-- `strip_images`: `_IMAGE_MD_RE` substitution then `_IMAGE_LINK_RE`. -/
def strip_images (s : String) : String :=
  if s = "" then ""
  else
    let t1 := subScan tryImageMd s.data.length s.data
    String.mk (subScan tryImageLink t1.length t1)

/-- `lowercase(text) = (text or "").lower()` (the `or ""` is the identity on
strings since `"".lower() = ""`). -/
def lowercase (s : String) : String := pyLower s

/-- Maximal runs of characters satisfying `p`, with an accumulator of the
current run (reversed). Models both `_WORD_RE.findall` and `str.split()`. -/
def runsGo (p : Char → Bool) : List Char → List Char → List String
  | [], acc => if acc.isEmpty then [] else [String.mk acc.reverse]
  | c :: rest, acc =>
    if p c then runsGo p rest (c :: acc)
    else if acc.isEmpty then runsGo p rest []
    else String.mk acc.reverse :: runsGo p rest []

/-- `tokenize`: `_WORD_RE.findall(text.lower())`. -/
def tokenize (s : String) : List String :=
  if s = "" then [] else runsGo isWordChar (pyLower s).data []

/-- `str.split()` with no argument: maximal non-whitespace runs. -/
def pySplit (s : String) : List String :=
  runsGo (fun c => !pyIsSpace c) s.data []

/-! ## Bot/CI filter (`src/preprocessing/filters.py`) -/

/-- `BOT_CI_PATTERNS`. -/
def BOT_CI_PATTERNS : List String :=
  ["[bot]", "bot", "github-actions", "dependabot", "dependabot[bot]",
   "actions-user", "greenkeeper", "renovate", "renovate[bot]",
   "stale", "stale[bot]", "ci", "travis", "circleci", "codecov"]

/-- Does `needle` occur at the head of `hay`? -/
def listStartsWith : List Char → List Char → Bool
  | _, [] => true
  | [], _ :: _ => false
  | c :: cs, d :: ds => c = d && listStartsWith cs ds

/-- Substring occurrence (Python `needle in hay`). -/
def containsSub : List Char → List Char → Bool
  | [], needle => needle.isEmpty
  | c :: rest, needle => listStartsWith (c :: rest) needle || containsSub rest needle

/-- Python `pat in hay` on strings. -/
def strContains (hay pat : String) : Bool := containsSub hay.data pat.data

/-- `is_bot_or_ci(actor)`: lowercased login, empty login counts as bot, then
substring match against the fixed vocabulary. Raises `AttributeError` when
`actor` is not a dict or a truthy non-string login is lowercased. -/
def is_bot_or_ci (actor : J) : Except PyErr Bool := do
  let v ← pyGet actor "login"
  match pyOr (v.getD .null) (.str "") with
  | .str s =>
    let login := pyLower s
    if login = "" then pure true
    else pure (BOT_CI_PATTERNS.any fun p => strContains login p)
  | _ => .error .attrError

/-! ## Event models (`src/dataset_readers/gharchive/models.py`) -/

/-- `EventType` enum. -/
inductive EventTypeV where
  | pullRequest : EventTypeV
  | prReview : EventTypeV
  | prReviewComment : EventTypeV
  | issueComment : EventTypeV
  deriving Repr, DecidableEq

/-- `EventType(value)`: enum lookup; any other value raises `ValueError`. -/
def eventTypeOf : J → Except PyErr EventTypeV
  | .str "PullRequestEvent" => .ok .pullRequest
  | .str "PullRequestReviewEvent" => .ok .prReview
  | .str "PullRequestReviewCommentEvent" => .ok .prReviewComment
  | .str "IssueCommentEvent" => .ok .issueComment
  | _ => .error .valueError

/-- `s.replace("Z", "+00:00")`. -/
def pyReplaceZ (s : String) : String :=
  String.mk (s.data.flatMap fun c => if c = 'Z' then "+00:00".data else [c])

/-- Modelled validity check for `datetime.fromisoformat` (an external stdlib
call): accepts strings with a `YYYY-MM-DD` date part, optionally followed by a
`'T'` or `' '` separator and a time part. A simplified approximation of the
stdlib's accepted grammar; no claim depends on its exact acceptance set. -/
def isoOK (s : String) : Bool :=
  match s.data with
  | y1 :: y2 :: y3 :: y4 :: '-' :: m1 :: m2 :: '-' :: d1 :: d2 :: rest =>
    ([y1, y2, y3, y4, m1, m2, d1, d2].all Char.isDigit) &&
      (match rest with
       | [] => true
       | sep :: more => (sep = 'T' || sep = ' ') && more.all fun c =>
           c.isDigit || c = ':' || c = '+' || c = '-' || c = '.')
  | _ => false

/-- `Actor` dataclass (fields are stored as decoded values). -/
structure ActorV where
  aid : J
  login : J
  displayLogin : J
  deriving Repr

/-- `Actor.from_dict(data)`: raises `AttributeError` when `data` is not a
dict (Python would fail on `.get`). -/
def actorFromDict (data : J) : Except PyErr ActorV :=
  match data with
  | .obj fs =>
    .ok ⟨(jGet fs "id").getD .null, (jGet fs "login").getD .null,
         (jGet fs "display_login").getD .null⟩
  | _ => .error .attrError

/-- `GitHubEvent` dataclass. `createdAt` holds the already-`Z`-replaced
timestamp string that `fromisoformat` accepted. -/
structure GitHubEventV where
  eventId : J
  eventType : EventTypeV
  createdAt : String
  actor : ActorV
  repoName : J
  payload : J
  deriving Repr

/-- `GitHubEvent.from_dict(data)`, with the keyword arguments evaluated in
source order: `id`, `type` (`ValueError` on unknown), `created_at`
(`KeyError` if absent, `AttributeError` if not a string, `ValueError` if not
ISO), `actor`, `repo` (note: a `repo` key holding `None` raises
`AttributeError`, since `None.get` fails), `payload`. -/
def gitHubEventFromDict (data : J) : Except PyErr GitHubEventV := do
  let eid := (← pyGet data "id").getD .null
  let et ← eventTypeOf ((← pyGet data "type").getD .null)
  let caV ← match (← pyGet data "created_at") with
            | none => Except.error .keyError
            | some v => pure v
  let caS ← match caV with
            | .str s => pure s
            | _ => Except.error .attrError
  let caR := pyReplaceZ caS
  if !isoOK caR then Except.error .valueError
  else do
    let act ← actorFromDict ((← pyGet data "actor").getD (.obj []))
    let rn ← pyGetD ((← pyGet data "repo").getD (.obj [])) "name" (.str "")
    let pl := (← pyGet data "payload").getD (.obj [])
    pure ⟨eid, et, caR, act, rn, pl⟩

/-- `GitHubEvent.extract_text_content()`. Returns the raw value found (it need
not be a string). All four enum cases are covered, so the trailing
`return None` of the source is unreachable. -/
def extractTextContent (gh : GitHubEventV) : Except PyErr J :=
  match gh.eventType with
  | .pullRequest => do
    let prd ← pyGetD gh.payload "pull_request" (.obj [])
    let title ← pyGetD prd "title" (.str "")
    let body ← pyGetD prd "body" (.str "")
    pure (if body.truthy then .str (pyStr title ++ "\n" ++ pyStr body) else title)
  | .prReviewComment | .issueComment => do
    let c ← pyGetD gh.payload "comment" (.obj [])
    pyGetD c "body" (.str "")
  | .prReview => do
    let r ← pyGetD gh.payload "review" (.obj [])
    pyGetD r "body" (.str "")

/-! ## Archive-side filters (`src/dataset_readers/gharchive/filters.py`) -/

/-- `HasTextContentFilter.matches(event)`: parse and extract, treating
`ValueError`/`KeyError` as no-match; other exceptions propagate. The result is
truthy only for a string with non-whitespace content (`text is not None` then
`len(text.strip()) > 0`; `.strip()` on a non-string non-None value raises). -/
def hasTextContent (event : J) : Except PyErr Bool :=
  match (do extractTextContent (← gitHubEventFromDict event) : Except PyErr J) with
  | .error .valueError => .ok false
  | .error .keyError => .ok false
  | .error e => .error e
  | .ok .null => .ok false
  | .ok (.str s) => .ok (decide ((pyStrip s).length > 0))
  | .ok _ => .error .attrError

/-- `EventFilterPipeline(HasTextContentFilter()).filter_events(events)` (the
stats counters are not modelled; they feed only log lines and run metadata). -/
def filterEventsHasText : List J → Except PyErr (List J)
  | [] => .ok []
  | e :: rest => do
    let m ← hasTextContent e
    let tail ← filterEventsHasText rest
    pure (if m then e :: tail else tail)

/-! ## Archive client (`src/dataset_readers/gharchive/client.py`) -/

/-- `datetime`, reduced to the fields the client manipulates: a day counter
(`timedelta(days=1)` is `day + 1`), the hour, and `sub`, the lexicographic
bundle of all sub-hour fields (minute, second, microsecond) that
`replace(hour=...)` leaves untouched and comparisons order after the hour. -/
structure DTime where
  day : Nat
  hour : Nat
  sub : Nat
  deriving Repr, DecidableEq

/-- `datetime` comparison (lexicographic). -/
def dtLt (a b : DTime) : Bool :=
  a.day < b.day || (a.day = b.day && (a.hour < b.hour || (a.hour = b.hour && a.sub < b.sub)))

/-- A transport-level failure (`requests.RequestException`: non-2xx raised by
`raise_for_status`, or a connection error). -/
structure TErr where
  code : Nat
  deriving Repr, DecidableEq

/-- The injected HTTP transport: for a (day, hour) resource it returns the
decoded line-delimited JSON body — one entry per line, `none` for a blank or
malformed line (both are skipped and logged) — or fails. -/
abbrev Transport : Type := Nat → Nat → Except TErr (List (Option J))

/-- Errors surfacing from `fetch_hour_data`. -/
inductive FetchErr where
  | transport (e : TErr) : FetchErr
  | python (e : PyErr) : FetchErr
  deriving Repr, DecidableEq

/-- Loop-body filter decision of `fetch_hour_data` for one decoded event:
repository filter first (case-insensitive membership, with a missing/falsy
repo object or name coerced to `""`), then the exact event-type filter.
`.get` on a non-dict event and `.lower()` on a truthy non-string name raise. -/
def hourFilterStep (repoLower : List String) (types : List String) (e : J) :
    Except PyErr Bool :=
  let repoPass : Except PyErr Bool :=
    if repoLower.isEmpty then .ok true
    else
      match pyGet e "repo" with
      | .error err => .error err
      | .ok rv =>
        match pyGet (pyOr (rv.getD .null) (.obj [])) "name" with
        | .error err => .error err
        | .ok nOpt =>
          match pyOr (nOpt.getD .null) (.str "") with
          | .str s => .ok (repoLower.contains (pyLower s))
          | _ => .error .attrError
  match repoPass with
  | .error err => .error err
  | .ok rp =>
    if !rp then .ok false
    else if types.isEmpty then .ok true
    else
      match pyGet e "type" with
      | .error err => .error err
      | .ok tvOpt =>
        match tvOpt.getD .null with
        | .str s => .ok (types.contains s)
        | _ => .ok false

/-- The line loop of `fetch_hour_data`: skip undecodable/blank lines, keep
events passing both filters. -/
def filterHourLines (repoLower types : List String) : List (Option J) → Except PyErr (List J)
  | [] => .ok []
  | none :: rest => filterHourLines repoLower types rest
  | some e :: rest =>
    match hourFilterStep repoLower types e with
    | .error err => .error err
    | .ok keep =>
      match filterHourLines repoLower types rest with
      | .error err => .error err
      | .ok tail => .ok (if keep then e :: tail else tail)

/-- `fetch_hour_data`: transport failure is logged and re-raised; otherwise
the decoded lines are filtered (`repo_names_lower = {n.lower() for n in ...}`;
`None` filters behave as empty sets). -/
def fetch_hour_data (resp : Except TErr (List (Option J))) (repoNames types : List String) :
    Except FetchErr (List J) :=
  match resp with
  | .error e => .error (.transport e)
  | .ok lines =>
    match filterHourLines (repoNames.map pyLower) types lines with
    | .error e => .error (.python e)
    | .ok evs => .ok evs

/-- One trace entry of the range loop: the (day, hour) attempted, and the
hour's outcome — `none` when a transport failure made the hour skip-and-log. -/
abbrev Attempt : Type := (Nat × Nat) × Option (List J)

/-- The inner `for hour in range(24)` loop at day `day`: stop the whole range
(`return`) at the first hour whose `current_date.replace(hour=hour)` is not
before `end_date`; a transport failure records a skip; any other exception
propagates. Returns the attempts and whether the `return` was taken. -/
def fetchDay (t : Transport) (repoNames types : List String) (day sub : Nat)
    (endDT : DTime) : List Nat → Except PyErr (List Attempt × Bool)
  | [] => .ok ([], false)
  | h :: hs =>
    if dtLt ⟨day, h, sub⟩ endDT then
      match fetch_hour_data (t day h) repoNames types with
      | .error (.python e) => .error e
      | .error (.transport _) =>
        match fetchDay t repoNames types day sub endDT hs with
        | .error e => .error e
        | .ok (as, r) => .ok (((day, h), none) :: as, r)
      | .ok evs =>
        match fetchDay t repoNames types day sub endDT hs with
        | .error e => .error e
        | .ok (as, r) => .ok (((day, h), some evs) :: as, r)
    else .ok ([], true)

/-- The `while current_date < end_date` loop. `fuel` is
`endDT.day + 1 - cur.day` at every call (when the guard holds the day count is
below `endDT.day + 1`, so fuel is positive; with exhausted fuel the guard is
false as well), making the recursion structural without changing behaviour. -/
def fetchRangeGo (t : Transport) (repoNames types : List String) (endDT : DTime) :
    Nat → DTime → Except PyErr (List Attempt)
  | 0, _ => .ok []
  | fuel + 1, cur =>
    if dtLt cur endDT then
      match fetchDay t repoNames types cur.day cur.sub endDT (List.range 24) with
      | .error e => .error e
      | .ok (as, earlyReturn) =>
        if earlyReturn then .ok as
        else
          match fetchRangeGo t repoNames types endDT fuel ⟨cur.day + 1, cur.hour, cur.sub⟩ with
          | .error e => .error e
          | .ok rest => .ok (as ++ rest)
    else .ok []

/-- `fetch_date_range(start, end, ...)`, observed as its trace of per-hour
attempts (a Python exception raised mid-iteration aborts the generator and is
modelled as the error result). -/
def fetch_date_range (t : Transport) (repoNames types : List String)
    (startDT endDT : DTime) : Except PyErr (List Attempt) :=
  fetchRangeGo t repoNames types endDT (endDT.day + 1 - startDT.day) startDT

/-- The batches the generator actually yields: the successful attempts with a
non-empty filtered batch, in trace order (`if events: yield events`). -/
def rangeYields (as : List Attempt) : List (List J) :=
  as.filterMap fun a =>
    match a.2 with
    | some evs => if evs.isEmpty then none else some evs
    | none => none

/-- The hours `fetch_date_range` attempts, characterised directly: every day
`d` from `start.day` on for which `(d, start.hour, start.sub)` is before
`end`, and within such a day every hour `h` with `(d, h, start.sub)` before
`end`. This is the specification-side description proved equal to the trace. -/
def attemptedHours (startDT endDT : DTime) : List (Nat × Nat) :=
  (List.range' startDT.day (endDT.day + 1 - startDT.day)).flatMap fun d =>
    if dtLt ⟨d, startDT.hour, startDT.sub⟩ endDT then
      (List.range 24).filterMap fun h =>
        if dtLt ⟨d, h, startDT.sub⟩ endDT then some (d, h) else none
    else []

/-! ## Record store (`src/dataset_readers/gharchive/storage.py`) -/

/-- `_extract_repo(event) = (event.get("repo") or {}).get("name") or ""`. -/
def extractRepo (e : J) : Except PyErr J := do
  let rv := (← pyGet e "repo").getD .null
  let nOpt ← pyGet (pyOr rv (.obj [])) "name"
  pure (pyOr (nOpt.getD .null) (.str ""))

/-- `_extract_created_at(event) = event.get("created_at") or ""`. -/
def extractCreatedAt (e : J) : Except PyErr J := do
  pure (pyOr ((← pyGet e "created_at").getD .null) (.str ""))

/-- `_extract_type(event) = event.get("type") or ""`. -/
def extractType (e : J) : Except PyErr J := do
  pure (pyOr ((← pyGet e "type").getD .null) (.str ""))

/-- `_extract_author_association(event)`: first truthy `author_association`
among the `comment`, `review`, `pull_request`, `issue` payload sub-objects
(in that order, with Python `or` short-circuiting), else `""`. -/
def extractAuthorAssociation (e : J) : Except PyErr J := do
  let pl := pyOr ((← pyGet e "payload").getD .null) (.obj [])
  let c ← pyGetD pl "comment" (.obj [])
  let v1 := (← pyGet c "author_association").getD .null
  if v1.truthy then pure v1
  else do
    let r ← pyGetD pl "review" (.obj [])
    let v2 := (← pyGet r "author_association").getD .null
    if v2.truthy then pure v2
    else do
      let p ← pyGetD pl "pull_request" (.obj [])
      let v3 := (← pyGet p "author_association").getD .null
      if v3.truthy then pure v3
      else do
        let i ← pyGetD pl "issue" (.obj [])
        let v4 := (← pyGet i "author_association").getD .null
        pure (pyOr v4 (.str ""))

/-- `_extract_actor_login(event) = (event.get("actor") or {}).get("login") or ""`. -/
def extractActorLogin (e : J) : Except PyErr J := do
  let av := (← pyGet e "actor").getD .null
  let lOpt ← pyGet (pyOr av (.obj [])) "login"
  pure (pyOr (lOpt.getD .null) (.str ""))

mutual

/-- Deterministic serializer standing in for `json.dumps(event, ensure_ascii=False)`
(string escaping elided; the result is only ever stored and re-parsed as an
opaque payload, so only determinism matters here). -/
def jDump : J → String
  | .null => "null"
  | .bool b => if b then "true" else "false"
  | .int n => toString n
  | .str s => "\"" ++ s ++ "\""
  | .arr xs => "[" ++ jDumpList xs ++ "]"
  | .obj fs => "\x7b" ++ jDumpFields fs ++ "\x7d"

def jDumpList : List J → String
  | [] => ""
  | [x] => jDump x
  | x :: y :: xs => jDump x ++ ", " ++ jDumpList (y :: xs)

def jDumpFields : List (String × J) → String
  | [] => ""
  | [kv] => "\"" ++ kv.1 ++ "\": " ++ jDump kv.2
  | kv :: kw :: fs => "\"" ++ kv.1 ++ "\": " ++ jDump kv.2 ++ ", " ++ jDumpFields (kw :: fs)

end

/-- One stored row of the `events`/`cleaned` tables, minus the primary key. -/
structure Row where
  repo : J
  createdAt : J
  etype : J
  authorAssoc : J
  actorLogin : J
  eventJson : String
  deriving Repr

/-- A table keyed by `id`: association list, unique keys. -/
abbrev Table : Type := List (String × Row)

/-- `INSERT OR REPLACE`: replace the row with the same primary key in place,
else append. (SQLite's physical row order is unobservable — `SELECT` order is
unspecified — so in-place replacement is a sound representation.) -/
def upsertRow (t : Table) (eid : String) (r : Row) : Table :=
  if t.any (fun kv => kv.1 = eid) then
    t.map fun kv => if kv.1 = eid then (eid, r) else kv
  else t ++ [(eid, r)]

/-- Key/row computation of one loop iteration of `append_events`:
`eid = str(event.get("id", ""))`, skip when falsy (`none`), else the five
indexed projections plus the serialized payload. -/
def eventKeyRow (e : J) : Except PyErr (Option (String × Row)) := do
  let eidJ ← pyGetD e "id" (.str "")
  let eid := pyStr eidJ
  if eid = "" then pure none
  else do
    let repo ← extractRepo e
    let ca ← extractCreatedAt e
    let ty ← extractType e
    let aa ← extractAuthorAssociation e
    let al ← extractActorLogin e
    pure (some (eid, ⟨repo, ca, ty, aa, al, jDump e⟩))

/-- The `for event in events` loop of `append_events` acting on the table. -/
def upsertEvents (t : Table) : List J → Except PyErr Table
  | [] => .ok t
  | e :: rest =>
    match eventKeyRow e with
    | .error err => .error err
    | .ok none => upsertEvents t rest
    | .ok (some (k, r)) => upsertEvents (upsertRow t k r) rest

/-- `StreamingWriter` session state: the table, the row count at session
start (`_initial_count`), and `_count`, the net new rows this run. -/
structure WriterState where
  table : Table
  initialCount : Nat
  countNet : Int

/-- `StreamingWriter.__init__` over an existing table. -/
def mkWriter (t : Table) : WriterState := ⟨t, t.length, 0⟩

/-- `append_events`: upsert the batch, then recompute
`_count = total_after - _initial_count`. -/
def append_events (w : WriterState) (events : List J) : Except PyErr WriterState := do
  let t2 ← upsertEvents w.table events
  pure ⟨t2, w.initialCount, (t2.length : Int) - (w.initialCount : Int)⟩

/-- A whole session: a sequence of `append_events` calls. -/
def appendMany (w : WriterState) : List (List J) → Except PyErr WriterState
  | [] => .ok w
  | b :: bs =>
    match append_events w b with
    | .error e => .error e
    | .ok w2 => appendMany w2 bs

/-- The primary keys of a table, in storage order. -/
def keysOf (t : Table) : List String := t.map Prod.fst

/-! ## Transform workflow, value level (`src/preprocessing/workflow.py`) -/

/-- `Context`: the record, in-progress text, cleaned text and token values.
At this observation level Python object identity is irrelevant (the heap-level
model below settles the mutation claim), so fields hold plain values. -/
structure CtxV where
  event : J
  text : J := .null
  cleanedText : J := .null
  tokens : J := .arr []

/-- A workflow step: update the context, drop (`none`), or raise. -/
abbrev StepV : Type := CtxV → Except PyErr (Option CtxV)

/-- `Workflow`: an ordered chain of steps. -/
structure WorkflowV where
  steps : List StepV

/-- `dict(event)` in `Workflow.run`: a top-level copy — identity at value
level on dicts; a non-dict event raises (`dict(5)` is a `TypeError`). -/
def pyDictOf (e : J) : Except PyErr J :=
  match e with
  | .obj fs => .ok (.obj fs)
  | _ => .error .typeError

/-- The step fold of `Workflow.run`: first `None` drops, errors propagate,
otherwise the final context's event is returned. -/
def runStepsV : List StepV → CtxV → Except PyErr (Option J)
  | [], ctx => .ok (some ctx.event)
  | s :: rest, ctx =>
    match s ctx with
    | .error e => .error e
    | .ok none => .ok none
    | .ok (some ctx2) => runStepsV rest ctx2

/-- `Workflow.run(event)`. -/
def WorkflowV.run (w : WorkflowV) (event : J) : Except PyErr (Option J) :=
  match pyDictOf event with
  | .error e => .error e
  | .ok ev2 => runStepsV w.steps { event := ev2 }

/-! ## Cleaning orchestrator (`src/preprocessing/pipeline.py`) -/

/-- Decimal numeral of a natural number, digit-by-digit (`str(read_count)`
for the nonnegative counters of the pipeline). `fuel` bounds the digit count;
`natStr` supplies `n + 1`, which always suffices. -/
def natStrGo : Nat → Nat → List Char
  | 0, _ => []
  | f + 1, n =>
    if n < 10 then [Char.ofNat (48 + n)]
    else natStrGo f (n / 10) ++ [Char.ofNat (48 + n % 10)]

/-- Python `str` of a nonnegative int. -/
def natStr (n : Nat) : String := String.mk (natStrGo (n + 1) n)

/-- `eid_key = str(eid) if eid is not None else ""` where
`eid = event.get("id")` (raises on a non-dict event). -/
def eidKeyOf (event : J) : Except PyErr String :=
  match pyGet event "id" with
  | .error e => .error e
  | .ok none => .ok ""
  | .ok (some .null) => .ok ""
  | .ok (some v) => .ok (pyStr v)

/-- The column values the cleaning loop binds for a surviving record
(`actor_login` is written as the literal `""`). -/
def cleanRowOf (cleaned : J) : Except PyErr Row := do
  let repo := pyOr ((← pyGet cleaned "repo").getD .null) (.str "")
  let ca := pyOr ((← pyGet cleaned "created_at").getD .null) (.str "")
  let ty := pyOr ((← pyGet cleaned "type").getD .null) (.str "")
  let aa := pyOr ((← pyGet cleaned "author_association").getD .null) (.str "")
  pure ⟨repo, ca, ty, aa, .str "", jDump cleaned⟩

/-- Running state of the `clean_db` loop: the three counters, the seen-id
set, and the output table. -/
structure CleanState where
  readCount : Nat
  dupCount : Nat
  writtenCount : Nat
  seen : List String
  outTable : Table

/-- Initial `clean_db` state. -/
def cleanInit : CleanState := ⟨0, 0, 0, [], []⟩

/-- One iteration of the `for row in input_cursor` loop of `clean_db`:
`none` rows are rows whose `json.loads` failed (caught: skip). A repeated
non-empty id is counted as a duplicate and skipped before the workflow runs.
Survivors are written with `INSERT OR REPLACE` under `eid_key or
str(read_count)`. Exceptions from the workflow run (or from the field
accesses on its result) propagate. -/
def cleanStep (run : J → Except PyErr (Option J)) (st : CleanState) (row : Option J) :
    Except PyErr CleanState :=
  let read := st.readCount + 1
  match row with
  | none => .ok { st with readCount := read }
  | some event =>
    match eidKeyOf event with
    | .error e => .error e
    | .ok eidKey =>
      if eidKey ≠ "" && st.seen.contains eidKey then
        .ok { st with readCount := read, dupCount := st.dupCount + 1 }
      else
        let seen2 := if eidKey ≠ "" then eidKey :: st.seen else st.seen
        match run event with
        | .error e => .error e
        | .ok none => .ok { st with readCount := read, seen := seen2 }
        | .ok (some cleaned) =>
          match cleanRowOf cleaned with
          | .error e => .error e
          | .ok r =>
            let key := if eidKey ≠ "" then eidKey else natStr read
            .ok { readCount := read, dupCount := st.dupCount,
                  writtenCount := st.writtenCount + 1, seen := seen2,
                  outTable := upsertRow st.outTable key r }

/-- The whole scan loop. -/
def cleanLoop (run : J → Except PyErr (Option J)) (st : CleanState) :
    List (Option J) → Except PyErr CleanState
  | [] => .ok st
  | r :: rest =>
    match cleanStep run st r with
    | .error e => .error e
    | .ok st2 => cleanLoop run st2 rest

/-- `clean_db(workflow, ...)` over the decoded rows of the input table
(`none` = a row whose `event_data` failed to decode). Returns the final
state; the source returns `(read_count, duplicate_count, written_count)` and
leaves the output table behind. -/
def clean_db (w : WorkflowV) (rows : List (Option J)) : Except PyErr CleanState :=
  cleanLoop (WorkflowV.run w) cleanInit rows

/-! ## Extraction orchestrator (`src/dataset_readers/gharchive/extractor.py`)

The orchestrator's `extract()` control flow: writers are opened per
configured repository (each keyed by the lowercased full name), the client's
hour batches are filtered (`HasTextContentFilter`), partitioned by repository
and appended; after the range completes every writer is finalized. The
`except Exception` clause logs and re-raises. The store is injected as a
failure oracle on the append-call index (a storage failure such as a lost
connection raises on `append_events`/`commit`); each writer's table is
modelled per writer, which is immaterial to the control-flow claims. -/

/-- One open writer plus its `finalize()` flag. -/
structure ExtWriter where
  w : WriterState
  finalized : Bool

/-- Writer map: lowercased repo full name to (full name, writer), in
configuration order (Python dict preserves insertion order). -/
abbrev Writers : Type := List (String × (String × ExtWriter))

/-- Errors aborting an extraction run. -/
inductive ExtErr where
  | python (e : PyErr) : ExtErr
  | storage : ExtErr
  deriving Repr, DecidableEq

/-- `writers[full_name.lower()] = (full_name, writer)` for each configured
repository. -/
def openWriters (repos : List String) : Writers :=
  repos.map fun r => (pyLower r, (r, ⟨mkWriter [], false⟩))

/-- `event.get("repo", {}).get("name", "").lower()` — the partition key of
the hour loop (note the `.get` defaults: a `repo` key holding `None` raises). -/
def partitionKey (e : J) : Except PyErr String := do
  let rv ← match (← pyGet e "repo") with
           | none => pure (J.obj [])
           | some v => pure v
  let nv ← pyGetD rv "name" (.str "")
  match nv with
  | .str s => pure (pyLower s)
  | _ => Except.error .attrError

/-- Append `e` to the group of key `k`, preserving first-occurrence group
order and within-group order (`defaultdict(list)`). -/
def addToGroup (gs : List (String × List J)) (k : String) (e : J) : List (String × List J) :=
  if gs.any (fun g => g.1 = k) then
    gs.map fun g => if g.1 = k then (g.1, g.2 ++ [e]) else g
  else gs ++ [(k, [e])]

/-- `by_repo` partitioning of one filtered hour batch. -/
def partitionByRepo (gs : List (String × List J)) : List J → Except PyErr (List (String × List J))
  | [] => .ok gs
  | e :: rest =>
    match partitionKey e with
    | .error err => .error err
    | .ok k => partitionByRepo (addToGroup gs k e) rest

/-- Replace the writer stored under `k`. -/
def setWriter (ws : Writers) (k : String) (ew : ExtWriter) : Writers :=
  ws.map fun kv => if kv.1 = k then (kv.1, (kv.2.1, ew)) else kv

/-- `writer.append_events(events)` with the injected store-failure oracle:
call index `idx` fails when `storeFail idx` (the SQLite layer raising), else
the append runs (whose own Python errors also propagate). -/
def appendCall (storeFail : Nat → Bool) (idx : Nat) (ew : ExtWriter) (evs : List J) :
    Except ExtErr ExtWriter :=
  if storeFail idx then .error .storage
  else
    match append_events ew.w evs with
    | .error e => .error (.python e)
    | .ok w2 => .ok ⟨w2, ew.finalized⟩

/-- The `for repo_key, events in by_repo.items()` loop: a missing key raises
`KeyError` (`writers[repo_key]`); append failures abort. Returns the updated
writers and next call index; on error the writers updated so far are kept
(the state the run dies with). -/
def appendGroups (storeFail : Nat → Bool) :
    List (String × List J) → Writers → Nat → (Except ExtErr Unit) × Writers × Nat
  | [], ws, idx => (.ok (), ws, idx)
  | (k, evs) :: rest, ws, idx =>
    match ws.lookup k with
    | none => (.error (.python .keyError), ws, idx)
    | some (_, ew) =>
      match appendCall storeFail idx ew evs with
      | .error e => (.error e, ws, idx)
      | .ok ew2 => appendGroups storeFail rest (setWriter ws k ew2) (idx + 1)

/-- The `for hourly_events in fetch_date_range(...)` loop body applied to
each yielded batch in order. -/
def extractBatches (storeFail : Nat → Bool) :
    List (List J) → Writers → Nat → (Except ExtErr Unit) × Writers × Nat
  | [], ws, idx => (.ok (), ws, idx)
  | batch :: rest, ws, idx =>
    match filterEventsHasText batch with
    | .error e => (.error (.python e), ws, idx)
    | .ok filtered =>
      match partitionByRepo [] filtered with
      | .error e => (.error (.python e), ws, idx)
      | .ok groups =>
        match appendGroups storeFail groups ws idx with
        | (.error e, ws2, idx2) => (.error e, ws2, idx2)
        | (.ok _, ws2, idx2) => extractBatches storeFail rest ws2 idx2

/-- The success-path epilogue: finalize every writer in order and collect
`(full_name, file_path)` (the path is the shared store's location). -/
def finalizeAll (ws : Writers) : Writers × List (String × String) :=
  (ws.map fun kv => (kv.1, (kv.2.1, ⟨kv.2.2.w, true⟩)),
   ws.map fun kv => (kv.2.1, "events.db"))

/-- `DataExtractor.extract()` over the yielded hour batches: open writers,
run the batch loop, then — only when the loop completed — finalize every
writer. The `except Exception` clause re-raises without finalizing; the final
writer map is returned alongside so the abort state is observable. -/
def extract (repos : List String) (batches : List (List J)) (storeFail : Nat → Bool) :
    Except ExtErr (List (String × String)) × Writers :=
  let ws0 := openWriters repos
  match extractBatches storeFail batches ws0 0 with
  | (.error e, ws2, _) => (.error e, ws2)
  | (.ok _, ws2, _) =>
    let (wsF, outputs) := finalizeAll ws2
    (.ok outputs, wsF)

/-! ## Transform workflow, heap level (`src/preprocessing/workflow.py`)

`Workflow.run` builds its `Context` over `dict(event)` — a SHALLOW copy, so
the caller's nested payload objects stay shared. To settle the frame claim
(no step mutates the caller's record) the dicts are modelled as heap objects:
a `JH` value is either a scalar or a reference into a heap of dicts. Python
lists are also objects, but no step mutates any list in place and none of the
claims observes list identity, so lists stay values. Dict literals (`{}`)
created and dropped inside an expression are read-only and modelled without
allocation. -/

/-- JSON-like runtime value with explicit dict references. -/
inductive JH where
  | null : JH
  | bool (b : Bool) : JH
  | int (n : Int) : JH
  | str (s : String) : JH
  | arr (xs : List JH) : JH
  | ref (a : Nat) : JH
  deriving Repr

/-- A heap dict: association list, unique keys, insertion order. -/
abbrev DictH : Type := List (String × JH)

/-- The heap: dicts addressed by position; allocation appends. -/
abbrev Heap : Type := List DictH

/-- Dereference (out-of-range reads yield the empty dict; never exercised on
well-formed states). -/
def hget (h : Heap) (a : Nat) : DictH := (h.get? a).getD []

/-- Allocate a fresh dict. -/
def halloc (h : Heap) (d : DictH) : Heap × Nat := (h ++ [d], h.length)

/-- Truthiness of a runtime value (a dict is truthy iff non-empty). -/
def JH.truthyH (h : Heap) : JH → Bool
  | .null => false
  | .bool b => b
  | .int n => n != 0
  | .str s => s ≠ ""
  | .arr xs => !xs.isEmpty
  | .ref a => !(hget h a).isEmpty

/-- `x or y` on runtime values. -/
def pyOrH (h : Heap) (x y : JH) : JH := if x.truthyH h then x else y

/-- `v.get(k)`: dict reference required, else `AttributeError`. -/
def hpyGet (h : Heap) (v : JH) (k : String) : Except PyErr (Option JH) :=
  match v with
  | .ref a => .ok ((hget h a).lookup k)
  | _ => .error .attrError

/-- `(x or {}).get(k)`: a falsy `x` reads from the empty literal. -/
def hGetOrEmpty (h : Heap) (x : JH) (k : String) : Except PyErr (Option JH) :=
  if x.truthyH h then hpyGet h x k else .ok none

/-- A maybe-dict: `none` stands for the `{}` literal produced by a `.get(k, {})`
default, `some v` for a stored value. -/
abbrev DVal : Type := Option JH

/-- `d.get(k, dflt)` on a maybe-dict. -/
def dGet (h : Heap) (v : DVal) (k : String) (dflt : JH) : Except PyErr JH :=
  match v with
  | none => .ok dflt
  | some (.ref a) => .ok (((hget h a).lookup k).getD dflt)
  | some _ => .error .attrError

/-- `d.get(k, {})` on a maybe-dict, keeping the maybe-dict shape. -/
def dGetDict (h : Heap) (v : DVal) (k : String) : Except PyErr DVal :=
  match v with
  | none => .ok none
  | some (.ref a) =>
    .ok (match (hget h a).lookup k with
         | some w => some w
         | none => none)
  | some _ => .error .attrError

/-- `d[k] = v` on a dict value: replace in place, else append (insertion
order preserved, as for Python dicts). -/
def dictSet (d : DictH) (k : String) (v : JH) : DictH :=
  if d.any (fun kv => kv.1 = k) then
    d.map fun kv => if kv.1 = k then (k, v) else kv
  else d ++ [(k, v)]

/-- `str(x)` for runtime values (dict rendering simplified as in `pyStr`). -/
def pyStrH (_h : Heap) : JH → String
  | .null => "None"
  | .bool b => if b then "True" else "False"
  | .int n => toString n
  | .str s => s
  | .arr _ => "[...]"
  | .ref _ => "\x7b...\x7d"

/-- Heap-level `Context`: the event is a dict address; `text`/`cleaned_text`
hold runtime values (initially `None`), tokens a string list. -/
structure CtxH where
  event : Nat
  text : JH := .null
  cleanedText : JH := .null
  tokens : List String := []

/-- A heap-level step. -/
abbrev StepH : Type := Heap → CtxH → Except PyErr (Heap × Option CtxH)

/-- A step that only reads the heap (every standard step except `finalize`
and `slim_output`): lift its context action. -/
def pureStep (f : Heap → CtxH → Except PyErr (Option CtxH)) : StepH :=
  fun h ctx =>
    match f h ctx with
    | .error e => .error e
    | .ok r => .ok (h, r)

/-- A step that computes a dict from the current state, allocates it, and
rebinds `ctx.event` to it (`finalize`, `slim_output`). -/
def allocStep (f : Heap → CtxH → Except PyErr DictH) : StepH :=
  fun h ctx =>
    match f h ctx with
    | .error e => .error e
    | .ok d => .ok (h ++ [d], some { ctx with event := h.length })

/-- `filter_bot`: `(ctx.event.get("actor") or {})` then `is_bot_or_ci`. -/
def filter_botH : StepH := pureStep fun h ctx =>
  let av := ((hget h ctx.event).lookup "actor").getD .null
  match hGetOrEmpty h av "login" with
  | .error e => .error e
  | .ok lOpt =>
    match pyOrH h (lOpt.getD .null) (.str "") with
    | .str s =>
      let login := pyLower s
      if login = "" then .ok none
      else if BOT_CI_PATTERNS.any (fun p => strContains login p) then .ok none
      else .ok (some ctx)
    | _ => .error .attrError

/-- `EventType(value)` on a runtime value. -/
def eventTypeOfH : JH → Except PyErr EventTypeV
  | .str "PullRequestEvent" => .ok .pullRequest
  | .str "PullRequestReviewEvent" => .ok .prReview
  | .str "PullRequestReviewCommentEvent" => .ok .prReviewComment
  | .str "IssueCommentEvent" => .ok .issueComment
  | _ => .error .valueError

/-- Heap-level `Actor` (fields unread by the workflow, but their computation
can raise). -/
def actorFromDictH (_h : Heap) (v : DVal) : Except PyErr Unit :=
  match v with
  | none => .ok ()
  | some (.ref _) => .ok ()
  | some _ => .error .attrError

/-- Heap-level `GitHubEvent`: only the fields `extract_text_content` reads. -/
structure GitHubEventH where
  eventType : EventTypeV
  payload : DVal

/-- Heap-level `GitHubEvent.from_dict(ctx.event)` (same evaluation order and
exception behaviour as the value-level `gitHubEventFromDict`). -/
def gitHubEventFromDictH (h : Heap) (addr : Nat) : Except PyErr GitHubEventH := do
  let fs := hget h addr
  let et ← eventTypeOfH ((fs.lookup "type").getD .null)
  let caV ← match fs.lookup "created_at" with
            | none => Except.error .keyError
            | some v => pure v
  let caS ← match caV with
            | .str s => pure s
            | _ => Except.error .attrError
  if !isoOK (pyReplaceZ caS) then Except.error .valueError
  else do
    let _ ← actorFromDictH h (fs.lookup "actor")
    let _ ←
      match fs.lookup "repo" with
      | none => pure (JH.str "")
      | some (.ref a) => pure (((hget h a).lookup "name").getD (.str ""))
      | some _ => Except.error .attrError
    pure ⟨et, fs.lookup "payload"⟩

/-- Heap-level `extract_text_content`. -/
def extractTextContentH (h : Heap) (gh : GitHubEventH) : Except PyErr JH :=
  match gh.eventType with
  | .pullRequest => do
    let prd ← dGetDict h gh.payload "pull_request"
    let title ← dGet h prd "title" (.str "")
    let body ← dGet h prd "body" (.str "")
    pure (if body.truthyH h then .str (pyStrH h title ++ "\n" ++ pyStrH h body) else title)
  | .prReviewComment | .issueComment => do
    let c ← dGetDict h gh.payload "comment"
    dGet h c "body" (.str "")
  | .prReview => do
    let r ← dGetDict h gh.payload "review"
    dGet h r "body" (.str "")

/-- `extract_text`: parse and extract, catching `ValueError`/`KeyError` as
`text = None`; then `return ctx if ctx.text and ctx.text.strip() else None`
(`.strip()` on a truthy non-string raises). -/
def extract_textH : StepH := pureStep fun h ctx =>
  let textJ : Except PyErr JH :=
    match (do extractTextContentH h (← gitHubEventFromDictH h ctx.event) : Except PyErr JH) with
    | .error .valueError => .ok .null
    | .error .keyError => .ok .null
    | .error e => .error e
    | .ok t => .ok t
  match textJ with
  | .error e => .error e
  | .ok t =>
    if t.truthyH h then
      match t with
      | .str s => if pyStrip s ≠ "" then .ok (some { ctx with text := t }) else .ok none
      | _ => .error .attrError
    else .ok none

/-- The `ctx.cleaned_text or ctx.text or ""` source value shared by the strip
steps; the result fed to a regex sub must be a string (`TypeError` otherwise). -/
def cleanedOrText (h : Heap) (ctx : CtxH) : JH :=
  pyOrH h ctx.cleanedText (pyOrH h ctx.text (.str ""))

/-- `strip_code`: `strip_code_blocks(ctx.text or "")`. -/
def strip_codeH : StepH := pureStep fun h ctx =>
  match pyOrH h ctx.text (.str "") with
  | .str s => .ok (some { ctx with cleanedText := .str (strip_code_blocks s) })
  | _ => .error .typeError

/-- `strip_images` step. -/
def strip_imagesH : StepH := pureStep fun h ctx =>
  match cleanedOrText h ctx with
  | .str s => .ok (some { ctx with cleanedText := .str (strip_images s) })
  | _ => .error .typeError

/-- `strip_diff` step. -/
def strip_diffH : StepH := pureStep fun h ctx =>
  match cleanedOrText h ctx with
  | .str s => .ok (some { ctx with cleanedText := .str (strip_diff_snippets s) })
  | _ => .error .typeError

/-- `normalize_lowercase`: `" ".join(lowercase(t).split()).strip()`. -/
def normalize_lowercaseH : StepH := pureStep fun h ctx =>
  match cleanedOrText h ctx with
  | .str s =>
    .ok (some { ctx with
      cleanedText := .str (pyStrip (String.intercalate " " (pySplit (lowercase s)))) })
  | _ => .error .attrError

/-- `tokenize_text`: `tokenize(ctx.cleaned_text or "")`. -/
def tokenize_textH : StepH := pureStep fun h ctx =>
  match pyOrH h ctx.cleanedText (.str "") with
  | .str s => .ok (some { ctx with tokens := tokenize s })
  | _ => .error .attrError

/-- `filter_min_tokens(min_tokens=2)`. -/
def filter_min_tokensH (minTokens : Nat) : StepH := pureStep fun _ ctx =>
  if ctx.tokens.length < minTokens then .ok none else .ok (some ctx)

/-- `finalize`: `out = dict(ctx.event)` (fresh shallow copy), set
`cleaned_text` and `tokens` on the copy, rebind `ctx.event`. -/
def finalizeH : StepH := allocStep fun h ctx =>
  .ok (dictSet (dictSet (hget h ctx.event) "cleaned_text" (pyOrH h ctx.cleanedText (.str "")))
        "tokens" (.arr (ctx.tokens.map .str)))

/-- `_get_author_association(ev)` at heap level. -/
def getAuthorAssocH (h : Heap) (fs : DictH) : Except PyErr JH := do
  let plV := (fs.lookup "payload").getD .null
  let pl : DVal := if plV.truthyH h then some plV else none
  let c ← dGetDict h pl "comment"
  let v1 ← dGet h c "author_association" .null
  if v1.truthyH h then pure v1
  else do
    let r ← dGetDict h pl "review"
    let v2 ← dGet h r "author_association" .null
    if v2.truthyH h then pure v2
    else do
      let p ← dGetDict h pl "pull_request"
      let v3 ← dGet h p "author_association" .null
      if v3.truthyH h then pure v3
      else do
        let i ← dGetDict h pl "issue"
        let v4 ← dGet h i "author_association" .null
        pure (pyOrH h v4 (.str ""))

/-- `slim_output`: build the seven-field record as a fresh dict. -/
def slim_outputH : StepH := allocStep fun h ctx =>
  let fs := hget h ctx.event
  let rv := (fs.lookup "repo").getD .null
  let repoName : JH :=
    match rv with
    | .ref a => ((hget h a).lookup "name").getD (.str "")
    | _ => .str ""
  match getAuthorAssocH h fs with
  | .error e => .error e
  | .ok aa =>
    .ok [("id", (fs.lookup "id").getD .null),
         ("cleaned_text", pyOrH h ctx.cleanedText ((fs.lookup "cleaned_text").getD (.str ""))),
         ("repo", repoName),
         ("created_at", (fs.lookup "created_at").getD .null),
         ("type", (fs.lookup "type").getD .null),
         ("author_association", aa),
         ("tokens", if ctx.tokens.isEmpty then (fs.lookup "tokens").getD (.arr [])
                    else .arr (ctx.tokens.map .str))]

/-- `default_workflow()`: the ten canonical steps in source order
(`filter_trivial` is commented out in the source). -/
def defaultStepsH : List StepH :=
  [filter_botH, extract_textH, strip_codeH, strip_imagesH, strip_diffH,
   normalize_lowercaseH, tokenize_textH, filter_min_tokensH 2, finalizeH, slim_outputH]

/-- The step fold of `Workflow.run` at heap level. -/
def runStepsH : List StepH → Heap → CtxH → Except PyErr (Heap × Option Nat)
  | [], h, ctx => .ok (h, some ctx.event)
  | s :: rest, h, ctx =>
    match s h ctx with
    | .error e => .error e
    | .ok (h2, none) => .ok (h2, none)
    | .ok (h2, some ctx2) => runStepsH rest h2 ctx2

/-- `Workflow.run(event)` at heap level: allocate the shallow copy
`dict(event)`, then fold the steps; the result is the final event address
(or a drop). -/
def runWorkflowH (steps : List StepH) (h : Heap) (a0 : Nat) : Except PyErr (Heap × Option Nat) :=
  let hc := halloc h (hget h a0)
  runStepsH steps hc.1 { event := hc.2 }

/-! ## Specification-side definitions used by the claim statements -/

/-- Claim-side predicate for C8: after trimming, does the line begin with
`'+'` or `'-'`? -/
def headIsPM : List Char → Bool
  | [] => false
  | c :: _ => c = '+' || c = '-'

/-- A line the diff-strip claim says must be removed. -/
def isDiffLine (l : String) : Bool := headIsPM (pyStrip l).data

/-- Well-shapedness of one decoded line for the hour filter: the event is a
dict whose `repo` field, when truthy, is a dict whose `name`, when truthy, is
a string — exactly what keeps `fetch_hour_data`'s filter free of Python
errors. -/
def lineOK : Option J → Bool
  | none => true
  | some (.obj fs) =>
    (match jGet fs "repo" with
     | some (.obj rfs) =>
       (match jGet rfs "name" with
        | some (.str _) => true
        | some v => !v.truthy
        | none => true)
     | some v => !v.truthy
     | none => true)
  | some _ => false

/-- Claim-side coerced repository name of a decoded record: the `name` of the
`repo` object, with every missing or falsy stage coerced to `""`. -/
def repoNameOf (e : J) : String :=
  match e with
  | .obj fs =>
    (match jGet fs "repo" with
     | some (.obj rfs) =>
       (match jGet rfs "name" with
        | some (.str s) => s
        | _ => "")
     | _ => "")
  | _ => ""

/-- The outcome `fetch_date_range` records for one attempted hour: `none`
for a transport failure (skip-and-log), the filtered batch otherwise. -/
def attemptResult (t : Transport) (repoNames types : List String) (d h : Nat) :
    Option (List J) :=
  match fetch_hour_data (t d h) repoNames types with
  | .ok evs => some evs
  | .error _ => none

/-- The full trace `fetch_date_range` produces for a transport whose decoded
lines are well-shaped: every hour of `attemptedHours`, each with its own
outcome. -/
def rangeTrace (t : Transport) (repoNames types : List String) (startDT endDT : DTime) :
    List Attempt :=
  (attemptedHours startDT endDT).map fun dh => (dh, attemptResult t repoNames types dh.1 dh.2)

/-- Decimal decoding, inverse to `natStrGo` on its image. -/
def decDec (cs : List Char) : Nat := cs.foldl (fun a c => a * 10 + (c.toNat - 48)) 0

/-- The last row a batch writes under key `k` (rightmost occurrence wins). -/
def lastKeyRow (k : String) : List J → Option Row
  | [] => none
  | e :: rest =>
    match lastKeyRow k rest with
    | some r => some r
    | none =>
      match eventKeyRow e with
      | .ok (some (k2, r)) => if k2 = k then some r else none
      | _ => none

/-- A heap step is frame-safe: on success it only extends the heap, and any
returned context keeps the event address or points into the extension. -/
def StepOkH (s : StepH) : Prop :=
  ∀ h ctx h2 r, s h ctx = .ok (h2, r) →
    (∃ ext, h2 = h ++ ext) ∧ ∀ ctx2, r = some ctx2 → ctx2.event = ctx.event ∨ h.length ≤ ctx2.event

/-- Concrete well-formed issue-comment event (used by closed instances). -/
def evC2 : J :=
  .obj [("id", .str "1"), ("type", .str "IssueCommentEvent"),
        ("created_at", .str "2024-01-01T00:00:00Z"),
        ("repo", .obj [("name", .str "a/b")]),
        ("payload", .obj [("comment", .obj [("body", .str "hello world")])])]

/-- Claim-side event-type filter decision: the decoded `type` value is a
string contained in the filter set (anything else is never in a set of
strings). -/
def typeMatches (types : List String) (e : J) : Bool :=
  match e with
  | .obj fs =>
    (match jGet fs "type" with
     | some (.str s) => types.contains s
     | _ => false)
  | _ => false

/-- Claim-side filter decision of `fetch_hour_data` for one decoded record. -/
def hourKeep (repoLower types : List String) (e : J) : Bool :=
  (repoLower.isEmpty || repoLower.contains (pyLower (repoNameOf e))) &&
    (types.isEmpty || typeMatches types e)

/-- A transport is well-shaped when every body it serves decodes to
well-shaped lines (the hour filter then never raises a Python error). -/
def WellShaped (t : Transport) : Prop :=
  ∀ d h ls, t d h = .ok ls → ∀ l ∈ ls, lineOK l = true

/-- Strict chronological order on (day, hour) stamps. -/
def lexLt (a b : Nat × Nat) : Prop :=
  a.1 < b.1 ∨ (a.1 = b.1 ∧ a.2 < b.2)

/-- A transport that fails (HTTP 500) exactly on hour 3 of day 0 and serves
an empty body everywhere else (used by closed instances). -/
def c6T : Transport := fun d h =>
  if d == 0 && h == 3 then .error ⟨500⟩ else .ok []

/-! # Theorems -/

/-! ## C8: diff-line stripping -/

theorem matchPre_emp_cat (b : RE) (rest : List Char) :
    RE.matchPre (.cat .emp b) rest = false := by
  induction rest with
  | nil => simp [RE.matchPre, RE.nullable]
  | cons c r ih => simpa [RE.matchPre, RE.nullable, RE.deriv] using ih

theorem matchPre_of_nullable (r : RE) (h : r.nullable = true) (cs : List Char) :
    r.matchPre cs = true := by
  cases cs <;> simp [RE.matchPre, h]

theorem diff_match (cs : List Char) : diffLineRE.matchPre cs = headIsPM cs := by
  cases cs with
  | nil => rfl
  | cons c rest =>
    show (diffLineRE.nullable || (diffLineRE.deriv c).matchPre rest) = headIsPM (c :: rest)
    have h0 : diffLineRE.nullable = false := rfl
    have h1 : diffLineRE.deriv c =
        RE.cat (if ((c = '+' : Bool) || (c = '-' : Bool)) = true then RE.eps else RE.emp)
          (RE.cat (RE.alt .eps (.cls pyIsSpace)) (.star (.cls fun x => x ≠ '\n'))) := rfl
    have h2 : headIsPM (c :: rest) = ((c = '+' : Bool) || (c = '-' : Bool)) := rfl
    rw [h0, Bool.false_or, h1, h2]
    by_cases hc : ((c = '+' : Bool) || (c = '-' : Bool)) = true
    · rw [if_pos hc,
        matchPre_of_nullable (RE.cat RE.eps
          (RE.cat (RE.alt .eps (.cls pyIsSpace)) (.star (.cls fun x => x ≠ '\n')))) rfl, hc]
    · rw [if_neg hc, matchPre_emp_cat, (Bool.eq_false_iff.mpr hc)]

/-- C8: `strip_diff_snippets` removes exactly the lines that, after trimming,
begin with `'+'` or `'-'` (the regex's optional following space adds no
constraint), preserving all other lines and their order; on the spec's example
it yields `"keep this\nkeep that"`; and the `strip_diff` step never signals a
drop (and leaves the heap untouched). -/
theorem c8_strip_diff_exact :
    (∀ s : String, strip_diff_snippets s =
        String.intercalate "\n" ((splitLines s).filter fun l => !isDiffLine l)) ∧
      strip_diff_snippets "keep this\n+added line\n-removed line\nkeep that" =
        "keep this\nkeep that" ∧
      ∀ h ctx h2 r, strip_diffH h ctx = .ok (h2, r) → h2 = h ∧ r ≠ none := by
  refine ⟨?_, by decide, ?_⟩
  · intro s
    unfold strip_diff_snippets
    by_cases hs : s = ""
    · subst hs; rfl
    · rw [if_neg hs]
      congr 1
      apply List.filter_congr
      intro l _
      rw [show isDiffLine l = headIsPM (pyStrip l).data from rfl, diff_match]
  · intro h ctx h2 r hstep
    unfold strip_diffH pureStep at hstep
    cases hcl : cleanedOrText h ctx <;> simp only [hcl] at hstep <;>
      first
      | (cases hstep; exact ⟨rfl, by simp⟩)
      | cases hstep

/-- C8 witness: the theorem applied to a context whose cleaned text is a diff
line. -/
theorem c8_witness :
    (([] : Heap) = ([] : Heap)) ∧
      (some { event := 0, text := .null, cleanedText := .str "", tokens := [] } :
          Option CtxH) ≠ none :=
  c8_strip_diff_exact.2.2 [] { event := 0, text := .null, cleanedText := .str "+a", tokens := [] }
    [] (some { event := 0, text := .null, cleanedText := .str "", tokens := [] }) rfl

/-! ## C1: a workflow-step exception during a cleaning run -/

/-- C1 counterexample: a cleaning run in which the workflow's (single) step
raises while processing the one record terminates with that exception —
`clean_db` has no `try/except` around `workflow.run`, so the run does not
continue. -/
theorem c1_counterexample :
    clean_db ⟨[fun _ => .error .valueError]⟩ [some (J.obj [("id", J.str "1")])] =
      .error .valueError := rfl

/-- C1 (amended): only `json.loads` failures are skip-and-continue — an
undecodable row just advances the read counter and the loop continues — while
an exception raised by a workflow step while processing a record propagates
and terminates the whole run with that exception. -/
theorem c1_amended :
    (∀ (run : J → Except PyErr (Option J)) st rest,
        cleanLoop run st (none :: rest) =
          cleanLoop run { st with readCount := st.readCount + 1 } rest) ∧
      ∀ (w : WorkflowV) st ev rest e,
        pyGet ev "id" = .ok none → WorkflowV.run w ev = .error e →
        cleanLoop (WorkflowV.run w) st (some ev :: rest) = .error e := by
  constructor
  · intro run st rest
    rfl
  · intro w st ev rest e hid hrun
    have hcs : cleanStep (WorkflowV.run w) st (some ev) = .error e := by
      unfold cleanStep eidKeyOf
      simp [hid, hrun]
    simp [cleanLoop, hcs]

/-- C1 witness: both parts applied at concrete inputs. -/
theorem c1_witness :
    cleanLoop (WorkflowV.run ⟨[fun _ => .error .valueError]⟩) cleanInit [some (J.obj [])] =
      .error .valueError :=
  c1_amended.2 ⟨[fun _ => .error .valueError]⟩ cleanInit (J.obj []) [] .valueError rfl rfl

/-! ## C2: no finalize attempt on an aborting extraction run -/

/-- C2 counterexample: one configured repository, one hour batch whose event
passes the text filter, and a store that fails on the first append. The run
aborts with the storage error and the (only) open writer is left with
`finalized = false` — `extract`'s `except` clause re-raises without calling
`finalize` on any writer. -/
theorem c2_counterexample :
    extract ["a/b"] [[evC2]] (fun _ => true) =
      (.error .storage, [("a/b", ("a/b", ⟨mkWriter [], false⟩))]) := rfl

theorem lookup_mem {α β : Type} [BEq α] [LawfulBEq α] {l : List (α × β)} {k : α} {v : β}
    (h : l.lookup k = some v) : (k, v) ∈ l := by
  induction l with
  | nil => cases h
  | cons p t ih =>
    obtain ⟨a, b⟩ := p
    rw [List.lookup] at h
    cases hk : (k == a) <;> rw [hk] at h
    · exact List.mem_cons_of_mem _ (ih h)
    · injection h with hv
      rw [eq_of_beq hk, ← hv]
      exact List.mem_cons_self _ _

theorem setWriter_false (ws : Writers) (k : String) (ew : ExtWriter)
    (hws : ∀ kv ∈ ws, kv.2.2.finalized = false) (hew : ew.finalized = false) :
    ∀ kv ∈ setWriter ws k ew, kv.2.2.finalized = false := by
  intro kv hkv
  rcases List.mem_map.mp hkv with ⟨kv0, hmem, heq⟩
  by_cases h : kv0.1 = k
  · rw [← heq]; simp only [h, if_true]; exact hew
  · rw [← heq]; simp only [h, if_false]; exact hws kv0 hmem

theorem appendCall_finalized (sf : Nat → Bool) (idx : Nat) (ew ew2 : ExtWriter)
    (evs : List J) (h : appendCall sf idx ew evs = .ok ew2) :
    ew2.finalized = ew.finalized := by
  unfold appendCall at h
  by_cases hf : sf idx = true
  · rw [if_pos hf] at h; cases h
  · rw [if_neg hf] at h
    cases hae : append_events ew.w evs <;> rw [hae] at h
    · cases h
    · injection h with h2; rw [← h2]

theorem appendGroups_false (sf : Nat → Bool) :
    ∀ (gs : List (String × List J)) (ws : Writers) (idx : Nat) res ws2 idx2,
      appendGroups sf gs ws idx = (res, ws2, idx2) →
      (∀ kv ∈ ws, kv.2.2.finalized = false) →
      ∀ kv ∈ ws2, kv.2.2.finalized = false := by
  intro gs
  induction gs with
  | nil =>
    intro ws idx res ws2 idx2 heq hws
    injection heq with h1 h2
    injection h2 with h3 h4
    rw [← h3]
    exact hws
  | cons g rest ih =>
    intro ws idx res ws2 idx2 heq hws
    obtain ⟨k, evs⟩ := g
    rw [appendGroups] at heq
    cases hl : ws.lookup k with
    | none =>
      rw [hl] at heq
      injection heq with h1 h2
      injection h2 with h3 h4
      rw [← h3]
      exact hws
    | some p =>
      obtain ⟨fn, ew⟩ := p
      simp only [hl] at heq
      cases hac : appendCall sf idx ew evs with
      | error e =>
        simp only [hac] at heq
        injection heq with h1 h2
        injection h2 with h3 h4
        rw [← h3]
        exact hws
      | ok ew2 =>
        simp only [hac] at heq
        exact ih (setWriter ws k ew2) (idx + 1) res ws2 idx2 heq
          (setWriter_false ws k ew2 hws
            ((appendCall_finalized sf idx ew ew2 evs hac).trans
              (hws (k, (fn, ew)) (lookup_mem hl))))

theorem extractBatches_false (sf : Nat → Bool) :
    ∀ (bs : List (List J)) (ws : Writers) (idx : Nat) res ws2 idx2,
      extractBatches sf bs ws idx = (res, ws2, idx2) →
      (∀ kv ∈ ws, kv.2.2.finalized = false) →
      ∀ kv ∈ ws2, kv.2.2.finalized = false := by
  intro bs
  induction bs with
  | nil =>
    intro ws idx res ws2 idx2 heq hws
    injection heq with h1 h2
    injection h2 with h3 h4
    rw [← h3]
    exact hws
  | cons b rest ih =>
    intro ws idx res ws2 idx2 heq hws
    rw [extractBatches] at heq
    cases hfe : filterEventsHasText b with
    | error e =>
      rw [hfe] at heq
      injection heq with h1 h2
      injection h2 with h3 h4
      rw [← h3]
      exact hws
    | ok filtered =>
      simp only [hfe] at heq
      cases hp : partitionByRepo [] filtered with
      | error e =>
        simp only [hp] at heq
        injection heq with h1 h2
        injection h2 with h3 h4
        rw [← h3]
        exact hws
      | ok groups =>
        simp only [hp] at heq
        cases hag : appendGroups sf groups ws idx with
        | mk res0 r0 =>
          obtain ⟨wsM, idxM⟩ := r0
          have hwsM : ∀ kv ∈ wsM, kv.2.2.finalized = false :=
            appendGroups_false sf groups ws idx res0 wsM idxM hag hws
          simp only [hag] at heq
          cases res0 with
          | error e =>
            injection heq with h1 h2
            injection h2 with h3 h4
            rw [← h3]
            exact hwsM
          | ok u =>
            exact ih wsM idxM res ws2 idx2 heq hwsM

/-- C2 (amended): an unrecoverable error (storage failure or a Python error)
propagates and aborts the run WITHOUT attempting to finalize any open writer
— the `except Exception` clause only logs and re-raises; writers are
finalized only on the success path, where every one of them is finalized. -/
theorem c2_no_finalize_on_abort :
    (∀ repos batches storeFail e ws,
        extract repos batches storeFail = (.error e, ws) →
        ∀ kv ∈ ws, kv.2.2.finalized = false) ∧
      ∀ repos batches storeFail res ws,
        extract repos batches storeFail = (.ok res, ws) →
        ∀ kv ∈ ws, kv.2.2.finalized = true := by
  have hopen : ∀ repos, ∀ kv ∈ openWriters repos, kv.2.2.finalized = false := by
    intro repos kv hkv
    rcases List.mem_map.mp hkv with ⟨r, _, heq⟩
    rw [← heq]
  constructor
  · intro repos batches storeFail e ws heq
    cases hex : extractBatches storeFail batches (openWriters repos) 0 with
    | mk res0 r0 =>
      obtain ⟨wsM, idxM⟩ := r0
      simp only [extract, hex] at heq
      cases res0 with
      | error e0 =>
        injection heq with h1 h2
        rw [← h2]
        exact extractBatches_false storeFail batches (openWriters repos) 0 (.error e0)
          wsM idxM hex (hopen repos)
      | ok u => simp only [finalizeAll] at heq; cases heq
  · intro repos batches storeFail res ws heq
    cases hex : extractBatches storeFail batches (openWriters repos) 0 with
    | mk res0 r0 =>
      obtain ⟨wsM, idxM⟩ := r0
      simp only [extract, hex] at heq
      cases res0 with
      | error e0 => cases heq
      | ok u =>
        simp only [finalizeAll] at heq
        injection heq with h1 h2
        rw [← h2]
        intro kv hkv
        rcases List.mem_map.mp hkv with ⟨kv0, _, heq2⟩
        rw [← heq2]

/-- C2 witness: the amended theorem applied to the counterexample run. -/
theorem c2_witness :
    ∀ kv ∈ [("a/b", ("a/b", (⟨mkWriter [], false⟩ : ExtWriter)))], kv.2.2.finalized = false :=
  c2_no_finalize_on_abort.1 ["a/b"] [[evC2]] (fun _ => true) .storage
    [("a/b", ("a/b", ⟨mkWriter [], false⟩))] rfl

/-! ## Storage lemmas (for C4 and C5) -/

theorem any_key_iff (t : Table) (k : String) :
    (t.any fun kv => kv.1 = k) = true ↔ k ∈ keysOf t := by
  rw [List.any_eq_true]
  constructor
  · rintro ⟨kv, hmem, hk⟩
    exact List.mem_map.mpr ⟨kv, hmem, of_decide_eq_true hk⟩
  · rintro hk
    rcases List.mem_map.mp hk with ⟨kv, hmem, hk2⟩
    exact ⟨kv, hmem, decide_eq_true hk2⟩

theorem upsertRow_keys (t : Table) (k : String) (r : Row) :
    keysOf (upsertRow t k r) = if k ∈ keysOf t then keysOf t else keysOf t ++ [k] := by
  unfold upsertRow
  by_cases hk : k ∈ keysOf t
  · rw [if_pos ((any_key_iff t k).mpr hk), if_pos hk]
    unfold keysOf
    rw [List.map_map]
    apply List.map_congr_left
    intro kv _
    by_cases h : kv.1 = k
    · simp [h]
    · simp [h]
  · rw [if_neg (fun hc => hk ((any_key_iff t k).mp hc)), if_neg hk]
    unfold keysOf
    rw [List.map_append]
    rfl

theorem lookup_cons_true {β : Type} {k a : String} (b : β) (t : List (String × β))
    (h : (k == a) = true) : List.lookup k ((a, b) :: t) = some b := by
  rw [List.lookup, h]

theorem lookup_cons_false {β : Type} {k a : String} (b : β) (t : List (String × β))
    (h : (k == a) = false) : List.lookup k ((a, b) :: t) = List.lookup k t := by
  rw [List.lookup, h]

theorem mapped_lookup_self (t : Table) (k : String) (r : Row) (hk : k ∈ keysOf t) :
    (t.map fun kv => if kv.1 = k then (k, r) else kv).lookup k = some r := by
  induction t with
  | nil => cases hk
  | cons kv rest ih =>
    obtain ⟨a, b⟩ := kv
    rw [List.map_cons]
    by_cases h : a = k
    · rw [if_pos h]
      exact lookup_cons_true r _ (beq_self_eq_true k)
    · rw [if_neg h]
      rw [lookup_cons_false b _ (beq_eq_false_iff_ne.mpr fun hc => h hc.symm)]
      apply ih
      rcases List.mem_map.mp hk with ⟨kv2, hmem, hk2⟩
      cases List.mem_cons.mp hmem with
      | inl heq => exact absurd (by rw [heq] at hk2; exact hk2) h
      | inr hmem2 => exact List.mem_map.mpr ⟨kv2, hmem2, hk2⟩

theorem mapped_lookup_other (t : Table) (k k2 : String) (r : Row) (hne : k2 ≠ k) :
    (t.map fun kv => if kv.1 = k then (k, r) else kv).lookup k2 = t.lookup k2 := by
  induction t with
  | nil => rfl
  | cons kv rest ih =>
    obtain ⟨a, b⟩ := kv
    rw [List.map_cons]
    by_cases h : a = k
    · rw [if_pos h]
      rw [lookup_cons_false r _ (beq_eq_false_iff_ne.mpr hne),
        lookup_cons_false b _ (beq_eq_false_iff_ne.mpr fun hc => hne (hc.trans h))]
      exact ih
    · rw [if_neg h]
      cases hbeq : (k2 == a)
      · rw [lookup_cons_false b _ hbeq, lookup_cons_false b _ hbeq]
        exact ih
      · rw [lookup_cons_true b _ hbeq, lookup_cons_true b _ hbeq]

theorem append_lookup_self (t : Table) (k : String) (r : Row) (hk : k ∉ keysOf t) :
    (t ++ [(k, r)]).lookup k = some r := by
  induction t with
  | nil => exact lookup_cons_true r _ (beq_self_eq_true k)
  | cons kv rest ih =>
    obtain ⟨a, b⟩ := kv
    rw [List.cons_append]
    have hne : (k == a) = false := by
      rw [beq_eq_false_iff_ne]
      intro hc
      exact hk (List.mem_map.mpr ⟨(a, b), List.mem_cons_self _ _, hc.symm⟩)
    rw [lookup_cons_false b _ hne]
    exact ih fun hc => hk (by
      rcases List.mem_map.mp hc with ⟨kv2, hmem, hk2⟩
      exact List.mem_map.mpr ⟨kv2, List.mem_cons_of_mem _ hmem, hk2⟩)

theorem append_lookup_other (t : Table) (k k2 : String) (r : Row) (hne : k2 ≠ k) :
    (t ++ [(k, r)]).lookup k2 = t.lookup k2 := by
  induction t with
  | nil =>
    rw [List.nil_append, lookup_cons_false r _ (beq_eq_false_iff_ne.mpr hne)]
  | cons kv rest ih =>
    obtain ⟨a, b⟩ := kv
    rw [List.cons_append]
    cases hbeq : (k2 == a)
    · rw [lookup_cons_false b _ hbeq, lookup_cons_false b _ hbeq]
      exact ih
    · rw [lookup_cons_true b _ hbeq, lookup_cons_true b _ hbeq]

theorem upsertRow_lookup (t : Table) (k k2 : String) (r : Row) :
    (upsertRow t k r).lookup k2 = if k2 = k then
      (if k ∈ keysOf t then some r else (t ++ [(k, r)]).lookup k)
    else t.lookup k2 := by
  unfold upsertRow
  by_cases hk : k ∈ keysOf t
  · rw [if_pos ((any_key_iff t k).mpr hk)]
    by_cases h2 : k2 = k
    · rw [if_pos h2, if_pos hk, h2]
      exact mapped_lookup_self t k r hk
    · rw [if_neg h2]
      exact mapped_lookup_other t k k2 r h2
  · rw [if_neg (fun hc => hk ((any_key_iff t k).mp hc))]
    by_cases h2 : k2 = k
    · rw [if_pos h2, if_neg hk, h2]
    · rw [if_neg h2]
      exact append_lookup_other t k k2 r h2

theorem upsertRow_lookup_simple (t : Table) (k k2 : String) (r : Row) :
    (upsertRow t k r).lookup k2 = if k2 = k then some r else t.lookup k2 := by
  rw [upsertRow_lookup]
  by_cases h2 : k2 = k
  · rw [if_pos h2, if_pos h2]
    by_cases hk : k ∈ keysOf t
    · rw [if_pos hk]
    · rw [if_neg hk]
      exact append_lookup_self t k r hk
  · rw [if_neg h2, if_neg h2]

theorem upsertRow_nodup (t : Table) (k : String) (r : Row) (h : (keysOf t).Nodup) :
    (keysOf (upsertRow t k r)).Nodup := by
  rw [upsertRow_keys]
  by_cases hk : k ∈ keysOf t
  · rw [if_pos hk]; exact h
  · rw [if_neg hk]
    rw [List.nodup_append]
    exact ⟨h, List.nodup_singleton k, by
      intro a ha hb
      rw [List.mem_singleton] at hb
      exact hk (hb ▸ ha)⟩

theorem upsertEvents_keys_mono (b : List J) :
    ∀ (t t2 : Table), upsertEvents t b = .ok t2 → ∀ k ∈ keysOf t, k ∈ keysOf t2 := by
  induction b with
  | nil =>
    intro t t2 heq k hk
    injection heq with h1
    rw [← h1]
    exact hk
  | cons e rest ih =>
    intro t t2 heq k hk
    rw [upsertEvents] at heq
    cases hkr : eventKeyRow e with
    | error err => rw [hkr] at heq; cases heq
    | ok o =>
      rw [hkr] at heq
      cases o with
      | none => exact ih t t2 heq k hk
      | some p =>
        obtain ⟨k0, r0⟩ := p
        refine ih (upsertRow t k0 r0) t2 heq k ?_
        rw [upsertRow_keys]
        by_cases h0 : k0 ∈ keysOf t
        · rw [if_pos h0]; exact hk
        · rw [if_neg h0]; exact List.mem_append_left _ hk

theorem upsertEvents_keys_stable (b : List J) :
    ∀ (t t2 : Table),
      (∀ e ∈ b, ∀ k r, eventKeyRow e = .ok (some (k, r)) → k ∈ keysOf t) →
      upsertEvents t b = .ok t2 → keysOf t2 = keysOf t := by
  induction b with
  | nil =>
    intro t t2 _ heq
    injection heq with h1
    rw [← h1]
  | cons e rest ih =>
    intro t t2 hpresent heq
    rw [upsertEvents] at heq
    cases hkr : eventKeyRow e with
    | error err => rw [hkr] at heq; cases heq
    | ok o =>
      rw [hkr] at heq
      cases o with
      | none =>
        exact ih t t2 (fun e2 he2 k r hr => hpresent e2 (List.mem_cons_of_mem _ he2) k r hr) heq
      | some p =>
        obtain ⟨k0, r0⟩ := p
        have hk0 : k0 ∈ keysOf t := hpresent e (List.mem_cons_self _ _) k0 r0 hkr
        have hkeys : keysOf (upsertRow t k0 r0) = keysOf t := by
          rw [upsertRow_keys, if_pos hk0]
        have := ih (upsertRow t k0 r0) t2
          (fun e2 he2 k r hr => by
            rw [hkeys]
            exact hpresent e2 (List.mem_cons_of_mem _ he2) k r hr) heq
        rw [this, hkeys]

theorem upsertEvents_keys_added (b : List J) :
    ∀ (t t2 : Table), upsertEvents t b = .ok t2 →
      ∀ e ∈ b, ∀ k r, eventKeyRow e = .ok (some (k, r)) → k ∈ keysOf t2 := by
  induction b with
  | nil => intro t t2 _ e he; cases he
  | cons e0 rest ih =>
    intro t t2 heq e he k r hr
    rw [upsertEvents] at heq
    cases hkr : eventKeyRow e0 with
    | error err => rw [hkr] at heq; cases heq
    | ok o =>
      rw [hkr] at heq
      cases List.mem_cons.mp he with
      | inl heq2 =>
        rw [heq2] at hr
        rw [hr] at hkr
        cases o with
        | none => cases hkr
        | some p =>
          obtain ⟨k0, r0⟩ := p
          injection hkr with hp
          injection hp with hp2
          injection hp2 with hk0 hr0
          subst hk0
          refine upsertEvents_keys_mono rest _ _ heq k ?_
          rw [upsertRow_keys]
          by_cases h0 : k ∈ keysOf t
          · rw [if_pos h0]; exact h0
          · rw [if_neg h0]
            exact List.mem_append_right _ (List.mem_singleton_self k)
      | inr hmem =>
        cases o with
        | none => exact ih t t2 heq e hmem k r hr
        | some p => exact ih _ t2 heq e hmem k r hr

theorem upsertEvents_lookup (b : List J) :
    ∀ (t t2 : Table), upsertEvents t b = .ok t2 → ∀ k,
      t2.lookup k = match lastKeyRow k b with
        | some r => some r
        | none => t.lookup k := by
  induction b with
  | nil =>
    intro t t2 heq k
    injection heq with h1
    rw [← h1, lastKeyRow]
  | cons e rest ih =>
    intro t t2 heq k
    rw [upsertEvents] at heq
    cases hkr : eventKeyRow e with
    | error err => rw [hkr] at heq; cases heq
    | ok o =>
      rw [hkr] at heq
      cases o with
      | none =>
        rw [ih t t2 heq k, lastKeyRow]
        cases hlast : lastKeyRow k rest
        · rw [hkr]
        · rfl
      | some p =>
        obtain ⟨k0, r0⟩ := p
        rw [ih (upsertRow t k0 r0) t2 heq k, lastKeyRow]
        cases hlast : lastKeyRow k rest
        · simp only [hlast, hkr]
          rw [upsertRow_lookup_simple]
          by_cases h0 : k0 = k
          · rw [if_pos h0.symm, if_pos h0]
          · rw [if_neg (fun hc => h0 hc.symm), if_neg h0]
        · simp only [hlast]

theorem lookup_none (t : Table) (k : String) (hk : k ∉ keysOf t) : t.lookup k = none := by
  induction t with
  | nil => rfl
  | cons kv rest ih =>
    obtain ⟨a, b⟩ := kv
    rw [lookup_cons_false b _ (beq_eq_false_iff_ne.mpr fun hc =>
      hk (List.mem_map.mpr ⟨(a, b), List.mem_cons_self _ _, hc.symm⟩))]
    exact ih fun hc => hk (by
      rcases List.mem_map.mp hc with ⟨kv2, hmem, hk2⟩
      exact List.mem_map.mpr ⟨kv2, List.mem_cons_of_mem _ hmem, hk2⟩)

theorem table_ext : ∀ (t1 t2 : Table), (keysOf t1).Nodup → keysOf t1 = keysOf t2 →
    (∀ k, t1.lookup k = t2.lookup k) → t1 = t2 := by
  intro t1
  induction t1 with
  | nil =>
    intro t2 _ hkeys _
    cases t2 with
    | nil => rfl
    | cons kv r2 => cases hkeys
  | cons kv r1 ih =>
    intro t2 hnodup hkeys hlook
    obtain ⟨a, b⟩ := kv
    cases t2 with
    | nil => cases hkeys
    | cons kv2 r2 =>
      obtain ⟨a2, b2⟩ := kv2
      have hkeys2 : a :: keysOf r1 = a2 :: keysOf r2 := hkeys
      injection hkeys2 with ha htl
      have hb : b = b2 := by
        have := hlook a
        rw [lookup_cons_true b _ (beq_self_eq_true a), ← ha,
          lookup_cons_true b2 _ (beq_self_eq_true a)] at this
        injection this
      have hna : a ∉ keysOf r1 := by
        have := List.nodup_cons.mp hnodup
        exact this.1
      have htls : r1 = r2 := by
        apply ih r2 (List.nodup_cons.mp hnodup).2 htl
        intro k
        by_cases hk : k = a
        · rw [hk, lookup_none r1 a hna, lookup_none r2 a (by rw [← htl]; exact hna)]
        · have := hlook k
          rw [lookup_cons_false b _ (beq_eq_false_iff_ne.mpr hk), ← ha,
            lookup_cons_false b2 _ (beq_eq_false_iff_ne.mpr hk)] at this
          exact this
      rw [ha, hb, htls]

theorem upsertEvents_nodup (b : List J) :
    ∀ (t t2 : Table), (keysOf t).Nodup → upsertEvents t b = .ok t2 → (keysOf t2).Nodup := by
  induction b with
  | nil =>
    intro t t2 hn heq
    injection heq with h1
    rw [← h1]
    exact hn
  | cons e rest ih =>
    intro t t2 hn heq
    rw [upsertEvents] at heq
    cases hkr : eventKeyRow e with
    | error err => rw [hkr] at heq; cases heq
    | ok o =>
      rw [hkr] at heq
      cases o with
      | none => exact ih t t2 hn heq
      | some p =>
        obtain ⟨k0, r0⟩ := p
        exact ih _ t2 (upsertRow_nodup t k0 r0 hn) heq

/-- C4: upserting a batch is idempotent — against an empty store, running the
same batch twice yields the very same table (hence the same `totalRows`) as
running it once — and a record whose id equals an existing row's id replaces
that row in place (same key set, same row count, new content). -/
theorem c4_upsert_idempotent :
    (∀ (b : List J) (w1 w2 : WriterState),
        append_events (mkWriter []) b = .ok w1 →
        append_events w1 b = .ok w2 →
        w2.table = w1.table ∧ w2.table.length = w1.table.length) ∧
      ∀ (t : Table) (k : String) (r : Row), k ∈ keysOf t →
        (upsertRow t k r).length = t.length ∧ (upsertRow t k r).lookup k = some r ∧
          keysOf (upsertRow t k r) = keysOf t := by
  constructor
  · intro b w1 w2 h1 h2
    unfold append_events at h1 h2
    cases hu1 : upsertEvents (mkWriter []).table b with
    | error e => rw [hu1] at h1; cases h1
    | ok t1 =>
      rw [hu1] at h1
      injection h1 with h1'
      have hw1 : w1.table = t1 := by rw [← h1']
      rw [hw1] at h2 ⊢
      cases hu2 : upsertEvents t1 b with
      | error e => rw [hu2] at h2; cases h2
      | ok t2 =>
        rw [hu2] at h2
        injection h2 with h2'
        have hw2 : w2.table = t2 := by rw [← h2']
        rw [hw2]
        have hu1' : upsertEvents ([] : Table) b = .ok t1 := hu1
        have hnodup1 : (keysOf t1).Nodup :=
          upsertEvents_nodup b [] t1 List.nodup_nil hu1'
        have hpresent : ∀ e ∈ b, ∀ k r, eventKeyRow e = .ok (some (k, r)) → k ∈ keysOf t1 :=
          upsertEvents_keys_added b [] t1 hu1'
        have hkeys : keysOf t2 = keysOf t1 :=
          upsertEvents_keys_stable b t1 t2 hpresent hu2
        have hlooks : ∀ k, t1.lookup k = t2.lookup k := by
          intro k
          rw [upsertEvents_lookup b [] t1 hu1' k, upsertEvents_lookup b t1 t2 hu2 k]
          cases hlast : lastKeyRow k b with
          | some r => rfl
          | none =>
            simp only
            rw [upsertEvents_lookup b [] t1 hu1' k, hlast]
        have : t1 = t2 := table_ext t1 t2 hnodup1 hkeys.symm hlooks
        exact ⟨this.symm, by rw [this]⟩
  · intro t k r hk
    refine ⟨?_, ?_, ?_⟩
    · unfold upsertRow
      rw [if_pos ((any_key_iff t k).mpr hk), List.length_map]
    · rw [upsertRow_lookup_simple, if_pos rfl]
    · rw [upsertRow_keys, if_pos hk]

/-- C4 witness: a two-event batch (with an internal duplicate id) upserted
twice against the empty store. -/
theorem c4_witness :
    ((upsertRow (upsertRow [] "1"
          ⟨.str "", .str "", .str "", .str "", .str "", jDump (J.obj [("id", J.str "1")])⟩)
        "1" ⟨.str "", .str "", .str "", .str "", .str "",
          jDump (J.obj [("id", J.str "1"), ("x", J.int 2)])⟩ : Table) =
      upsertRow (upsertRow [] "1"
          ⟨.str "", .str "", .str "", .str "", .str "", jDump (J.obj [("id", J.str "1")])⟩)
        "1" ⟨.str "", .str "", .str "", .str "", .str "",
          jDump (J.obj [("id", J.str "1"), ("x", J.int 2)])⟩) ∧
      (upsertRow (upsertRow [] "1"
          ⟨.str "", .str "", .str "", .str "", .str "", jDump (J.obj [("id", J.str "1")])⟩)
        "1" ⟨.str "", .str "", .str "", .str "", .str "",
          jDump (J.obj [("id", J.str "1"), ("x", J.int 2)])⟩ : Table).length =
      (upsertRow (upsertRow [] "1"
          ⟨.str "", .str "", .str "", .str "", .str "", jDump (J.obj [("id", J.str "1")])⟩)
        "1" ⟨.str "", .str "", .str "", .str "", .str "",
          jDump (J.obj [("id", J.str "1"), ("x", J.int 2)])⟩ : Table).length :=
  c4_upsert_idempotent.1 [J.obj [("id", J.str "1")], J.obj [("id", J.str "1"), ("x", J.int 2)]]
    _ _ rfl rfl

/-! ## C5: net-new row count of a writer session -/

theorem upsertEvents_length_stable (b : List J) (t t2 : Table)
    (hpresent : ∀ e ∈ b, ∀ k r, eventKeyRow e = .ok (some (k, r)) → k ∈ keysOf t)
    (heq : upsertEvents t b = .ok t2) : t2.length = t.length := by
  have hkeys := upsertEvents_keys_stable b t t2 hpresent heq
  have h1 : t2.length = (keysOf t2).length := (List.length_map _ _).symm
  have h2 : t.length = (keysOf t).length := (List.length_map _ _).symm
  rw [h1, h2, hkeys]

theorem appendMany_invariant (bs : List (List J)) :
    ∀ (w w2 : WriterState), appendMany w bs = .ok w2 →
      w2.initialCount = w.initialCount ∧
        (w.countNet = (w.table.length : Int) - (w.initialCount : Int) →
          w2.countNet = (w2.table.length : Int) - (w2.initialCount : Int)) := by
  induction bs with
  | nil =>
    intro w w2 heq
    injection heq with h1
    rw [← h1]
    exact ⟨rfl, fun h => h⟩
  | cons b rest ih =>
    intro w w2 heq
    rw [appendMany] at heq
    cases hap : append_events w b with
    | error e => rw [hap] at heq; cases heq
    | ok wmid =>
      rw [hap] at heq
      have hmid : wmid.initialCount = w.initialCount ∧
          wmid.countNet = (wmid.table.length : Int) - (wmid.initialCount : Int) := by
        unfold append_events at hap
        cases hu : upsertEvents w.table b with
        | error e => rw [hu] at hap; cases hap
        | ok t2 =>
          rw [hu] at hap
          injection hap with hap'
          rw [← hap']
          exact ⟨rfl, rfl⟩
      rcases ih wmid w2 heq with ⟨hic, hinv⟩
      exact ⟨hic.trans hmid.1, fun _ => hinv hmid.2⟩

/-- C5: after any sequence of appended batches, the session's `_count` equals
the table's total row count minus the row count at session start; and a batch
whose every written id is already present leaves both the row count and the
net-new count unchanged. -/
theorem c5_net_count :
    (∀ (t0 : Table) (bs : List (List J)) (w : WriterState),
        appendMany (mkWriter t0) bs = .ok w →
        w.countNet = (w.table.length : Int) - (t0.length : Int)) ∧
      ∀ (w w2 : WriterState) (b : List J),
        append_events w b = .ok w2 →
        (∀ e ∈ b, ∀ k r, eventKeyRow e = .ok (some (k, r)) → k ∈ keysOf w.table) →
        w2.table.length = w.table.length ∧ w2.countNet = (w.table.length : Int) - (w.initialCount : Int) := by
  constructor
  · intro t0 bs w heq
    rcases appendMany_invariant bs (mkWriter t0) w heq with ⟨hic, hinv⟩
    have h0 : (mkWriter t0).countNet =
        ((mkWriter t0).table.length : Int) - ((mkWriter t0).initialCount : Int) := by
      unfold mkWriter
      simp
    have := hinv h0
    rw [this, hic]
    rfl
  · intro w w2 b heq hpresent
    unfold append_events at heq
    cases hu : upsertEvents w.table b with
    | error e => rw [hu] at heq; cases heq
    | ok t2 =>
      rw [hu] at heq
      injection heq with heq'
      have hlen : t2.length = w.table.length := upsertEvents_length_stable b w.table t2 hpresent hu
      constructor
      · rw [← heq']
        exact hlen
      · rw [← heq']
        show (t2.length : Int) - (w.initialCount : Int) = _
        rw [hlen]

/-- C5 witness: the invariant after one insert batch, and a second batch that
only updates the existing id leaving count and length unchanged. -/
theorem c5_witness :
    ((appendMany (mkWriter []) [[J.obj [("id", J.str "1")]]]).map
        (fun w => w.countNet = (w.table.length : Int) - ((0 : Nat) : Int)) = .ok True) ∧
      ((⟨[("1", ⟨.str "", .str "", .str "", .str "", .str "",
            jDump (J.obj [("id", J.str "1")])⟩)], 0, 1⟩ : WriterState).table.length =
          (⟨[("1", ⟨.str "", .str "", .str "", .str "", .str "",
            jDump (J.obj [("id", J.str "1")])⟩)], 0, 1⟩ : WriterState).table.length ∧
        (⟨[("1", ⟨.str "", .str "", .str "", .str "", .str "",
            jDump (J.obj [("id", J.str "1")])⟩)], 0, 1⟩ : WriterState).countNet =
          (((⟨[("1", ⟨.str "", .str "", .str "", .str "", .str "",
            jDump (J.obj [("id", J.str "1")])⟩)], 0, 1⟩ : WriterState).table.length : Int) -
            ((⟨[("1", ⟨.str "", .str "", .str "", .str "", .str "",
              jDump (J.obj [("id", J.str "1")])⟩)], 0, 1⟩ : WriterState).initialCount : Int))) := by
  constructor
  · have h := c5_net_count.1 [] [[J.obj [("id", J.str "1")]]]
    cases hap : appendMany (mkWriter []) [[J.obj [("id", J.str "1")]]] with
    | error e => exact absurd hap (by intro hc; cases hc)
    | ok w =>
      have := h w hap
      exact congrArg Except.ok (eq_true this)
  · refine c5_net_count.2 _ _ [J.obj [("id", J.str "1")]] rfl ?_
    intro e he k r hr
    rw [List.mem_singleton] at he
    subst he
    have hev : eventKeyRow (J.obj [("id", J.str "1")]) =
        .ok (some ("1", ⟨.str "", .str "", .str "", .str "", .str "",
          jDump (J.obj [("id", J.str "1")])⟩)) := rfl
    rw [hev] at hr
    injection hr with h1
    injection h1 with h2
    injection h2 with hk hrr
    rw [← hk]
    decide

/-! ## C10: id-less records and surrogate keys in the cleaning run -/

theorem digitChar_toNat (d : Nat) (h : d < 10) : (Char.ofNat (48 + d)).toNat = 48 + d := by
  interval_cases d <;> rfl

theorem decDec_natStrGo : ∀ (f n : Nat), n < 10 ^ f → decDec (natStrGo f n) = n := by
  intro f
  induction f with
  | zero =>
    intro n hn
    interval_cases n
    rfl
  | succ f ih =>
    intro n hn
    rw [natStrGo]
    by_cases h10 : n < 10
    · rw [if_pos h10]
      show (0 * 10 + ((Char.ofNat (48 + n)).toNat - 48)) = n
      rw [digitChar_toNat n h10]
      omega
    · rw [if_neg h10]
      unfold decDec
      rw [List.foldl_append]
      have hdiv : n / 10 < 10 ^ f := by
        rw [Nat.div_lt_iff_lt_mul (by norm_num)]
        calc n < 10 ^ (f + 1) := hn
          _ = 10 ^ f * 10 := by rw [pow_succ]
      have := ih (n / 10) hdiv
      unfold decDec at this
      rw [this]
      show n / 10 * 10 + ((Char.ofNat (48 + n % 10)).toNat - 48) = n
      rw [digitChar_toNat (n % 10) (Nat.mod_lt n (by norm_num))]
      omega

theorem natStr_inj (m n : Nat) (h : natStr m = natStr n) : m = n := by
  unfold natStr at h
  have hd : natStrGo (m + 1) m = natStrGo (n + 1) n := congrArg String.data h
  have hm : m < 10 ^ (m + 1) :=
    lt_of_lt_of_le (Nat.lt_pow_self (by norm_num) m)
      (Nat.pow_le_pow_right (by norm_num) (Nat.le_succ m))
  have hn : n < 10 ^ (n + 1) :=
    lt_of_lt_of_le (Nat.lt_pow_self (by norm_num) n)
      (Nat.pow_le_pow_right (by norm_num) (Nat.le_succ n))
  calc m = decDec (natStrGo (m + 1) m) := (decDec_natStrGo (m + 1) m hm).symm
    _ = decDec (natStrGo (n + 1) n) := by rw [hd]
    _ = n := decDec_natStrGo (n + 1) n hn

theorem cleanStep_read (run : J → Except PyErr (Option J)) (st : CleanState)
    (row : Option J) (st2 : CleanState) (h : cleanStep run st row = .ok st2) :
    st2.readCount = st.readCount + 1 := by
  cases row with
  | none =>
    simp only [cleanStep] at h
    injection h with h1; rw [← h1]
  | some ev =>
    simp only [cleanStep] at h
    cases hid : eidKeyOf ev with
    | error e => simp only [hid] at h; cases h
    | ok eidKey =>
      simp only [hid] at h
      by_cases hdup : (decide (eidKey ≠ "") && st.seen.contains eidKey) = true
      · rw [if_pos hdup] at h
        injection h with h1
        rw [← h1]
      · rw [if_neg hdup] at h
        cases hrun : run ev with
        | error e => simp only [hrun] at h; cases h
        | ok o =>
          simp only [hrun] at h
          cases o with
          | none => injection h with h1; rw [← h1]
          | some cleaned =>
            cases hcr : cleanRowOf cleaned with
            | error e => simp only [hcr] at h; cases h
            | ok r =>
              simp only [hcr] at h
              injection h with h1
              rw [← h1]

/-- C10: a record whose id is missing, null or empty is never counted as a
duplicate (and never enters the seen-set); if it survives the workflow it is
written under the decimal string of its 1-based read position
(`eid_key or str(read_count)` with the counter incremented per scanned row);
distinct positions give distinct surrogate keys; and a surrogate key can
collide with a real id of the same decimal form, overwriting it. -/
theorem c10_idless_surrogate :
    (∀ (run : J → Except PyErr (Option J)) st ev st2,
        eidKeyOf ev = .ok "" → cleanStep run st (some ev) = .ok st2 →
        st2.dupCount = st.dupCount ∧ st2.seen = st.seen ∧
          ∀ cleaned r, run ev = .ok (some cleaned) → cleanRowOf cleaned = .ok r →
            st2.outTable = upsertRow st.outTable (natStr (st.readCount + 1)) r ∧
              st2.writtenCount = st.writtenCount + 1) ∧
      (∀ (run : J → Except PyErr (Option J)) st rows st2,
          cleanLoop run st rows = .ok st2 → st2.readCount = st.readCount + rows.length) ∧
      (∀ m n : Nat, m ≠ n → natStr m ≠ natStr n) ∧
      clean_db ⟨[]⟩ [some (J.obj [("id", J.str "2")]), some (J.obj [])] =
        .ok ⟨2, 0, 2, ["2"],
          [("2", ⟨.str "", .str "", .str "", .str "", .str "", jDump (J.obj [])⟩)]⟩ := by
  refine ⟨?_, ?_, ?_, rfl⟩
  · intro run st ev st2 hid h
    simp only [cleanStep] at h
    simp only [hid] at h
    rw [if_neg (by simp)] at h
    cases hrun : run ev with
    | error e => simp only [hrun] at h; cases h
    | ok o =>
      simp only [hrun] at h
      cases o with
      | none =>
        injection h with h1
        refine ⟨by rw [← h1], by rw [← h1]; rfl, ?_⟩
        intro cleaned r hr hcr
        simp at hr
      | some cleaned =>
        cases hcr : cleanRowOf cleaned with
        | error e => simp only [hcr] at h; cases h
        | ok r0 =>
          simp only [hcr] at h
          injection h with h1
          refine ⟨by rw [← h1], by rw [← h1]; rfl, ?_⟩
          intro cleaned2 r hr2 hcr2
          injection hr2 with hr3
          injection hr3 with hr4
          subst hr4
          rw [hcr] at hcr2
          injection hcr2 with hr5
          subst hr5
          constructor
          · rw [← h1]
            rfl
          · rw [← h1]
  · intro run st rows
    induction rows generalizing st with
    | nil =>
      intro st2 heq
      injection heq with h1
      rw [← h1, List.length_nil]
      omega
    | cons row rest ih =>
      intro st2 heq
      rw [cleanLoop] at heq
      cases hcs : cleanStep run st row with
      | error e => rw [hcs] at heq; cases heq
      | ok stm =>
        rw [hcs] at heq
        have h1 := ih stm st2 heq  -- wrong arg order fixed below if needed
        rw [h1, cleanStep_read run st row stm hcs, List.length_cons]
        omega
  · intro m n hmn hc
    exact hmn (natStr_inj m n hc)

/-- C10 witness: the step facts applied to an id-less record under the
identity workflow run, and the loop read-count fact on a one-row scan. -/
theorem c10_witness :
    ((⟨1, 0, 1, [],
        [("1", ⟨.str "", .str "", .str "", .str "", .str "", jDump (J.obj [])⟩)]⟩ :
          CleanState).dupCount = cleanInit.dupCount ∧
      (⟨1, 0, 1, [],
        [("1", ⟨.str "", .str "", .str "", .str "", .str "", jDump (J.obj [])⟩)]⟩ :
          CleanState).seen = cleanInit.seen ∧
      ∀ cleaned r,
        (fun e => (.ok (some e) : Except PyErr (Option J))) (J.obj []) = .ok (some cleaned) →
        cleanRowOf cleaned = .ok r →
        (⟨1, 0, 1, [],
          [("1", ⟨.str "", .str "", .str "", .str "", .str "", jDump (J.obj [])⟩)]⟩ :
            CleanState).outTable =
            upsertRow cleanInit.outTable (natStr (cleanInit.readCount + 1)) r ∧
          (⟨1, 0, 1, [],
            [("1", ⟨.str "", .str "", .str "", .str "", .str "", jDump (J.obj [])⟩)]⟩ :
              CleanState).writtenCount = cleanInit.writtenCount + 1) ∧
      natStr 1 ≠ natStr 2 :=
  ⟨c10_idless_surrogate.1 (fun e => .ok (some e)) cleanInit (J.obj [])
      ⟨1, 0, 1, [], [("1", ⟨.str "", .str "", .str "", .str "", .str "", jDump (J.obj [])⟩)]⟩
      rfl rfl,
    c10_idless_surrogate.2.2.1 1 2 (by decide)⟩

/-! ## Client lemmas (for C3, C6, C7) -/

theorem pyOr_falsy (v : J) (w : J) (h : v.truthy = false) : pyOr v w = w := by
  unfold pyOr
  rw [h]
  rfl

theorem hourFilterStep_spec (rl ts : List String) (e : J) (hok : lineOK (some e) = true) :
    hourFilterStep rl ts e = .ok (hourKeep rl ts e) := by
  cases e with
  | null => cases hok
  | bool b => cases hok
  | int n => cases hok
  | str s => cases hok
  | arr xs => cases hok
  | obj fs =>
    simp only [lineOK] at hok
    have hpass :
        (if rl.isEmpty then (.ok true : Except PyErr Bool)
         else
           match pyGet (J.obj fs) "repo" with
           | .error err => .error err
           | .ok rv =>
             match pyGet (pyOr (rv.getD .null) (.obj [])) "name" with
             | .error err => .error err
             | .ok nOpt =>
               match pyOr (nOpt.getD .null) (.str "") with
               | .str s => .ok (rl.contains (pyLower s))
               | _ => .error .attrError) =
        .ok (rl.isEmpty || rl.contains (pyLower (repoNameOf (J.obj fs)))) := by
      by_cases hrl : rl.isEmpty
      · simp [hrl]
      · have hrl2 : rl.isEmpty = false := Bool.eq_false_iff.mpr hrl
        rw [if_neg hrl, hrl2, Bool.false_or]
        simp only [pyGet]
        cases hrv : jGet fs "repo" with
        | none =>
          simp only [repoNameOf, hrv]
          rfl
        | some rv =>
          simp only [hrv] at hok
          cases rv with
          | obj rfs =>
            by_cases hrfs : rfs.isEmpty
            · have hnil : rfs = [] := List.isEmpty_iff.mp hrfs
              subst hnil
              simp only [repoNameOf, hrv]
              rfl
            · have htr : (J.obj rfs).truthy = true := by
                simp [J.truthy, hrfs]
              have hor : pyOr (J.obj rfs) (.obj []) = J.obj rfs := by
                unfold pyOr
                rw [htr]
                rfl
              rw [Option.getD_some, hor]
              simp only [pyGet]
              cases hn : jGet rfs "name" with
              | none =>
                simp only [repoNameOf, hrv, hn]
                rfl
              | some nv =>
                simp only [hn] at hok
                cases nv with
                | str s2 =>
                  by_cases hs2 : s2 = ""
                  · subst hs2
                    simp only [repoNameOf, hrv, hn]
                    rfl
                  · have htr2 : (J.str s2).truthy = true := by simp [J.truthy, hs2]
                    have hor2 : pyOr (J.str s2) (.str "") = .str s2 := by
                      unfold pyOr
                      rw [htr2]
                      rfl
                    rw [Option.getD_some, hor2]
                    simp only [repoNameOf, hrv, hn]
                | null =>
                  simp only [repoNameOf, hrv, hn]
                  rfl
                | bool b2 =>
                  have hok2 : (!(J.bool b2).truthy) = true := hok
                  have hf : (J.bool b2).truthy = false := by
                    cases hnv : (J.bool b2).truthy
                    · rfl
                    · rw [hnv] at hok2; cases hok2
                  rw [Option.getD_some, pyOr_falsy _ _ hf]
                  simp only [repoNameOf, hrv, hn]
                | int n2 =>
                  have hok2 : (!(J.int n2).truthy) = true := hok
                  have hf : (J.int n2).truthy = false := by
                    cases hnv : (J.int n2).truthy
                    · rfl
                    · rw [hnv] at hok2; cases hok2
                  rw [Option.getD_some, pyOr_falsy _ _ hf]
                  simp only [repoNameOf, hrv, hn]
                | arr xs2 =>
                  have hok2 : (!(J.arr xs2).truthy) = true := hok
                  have hf : (J.arr xs2).truthy = false := by
                    cases hnv : (J.arr xs2).truthy
                    · rfl
                    · rw [hnv] at hok2; cases hok2
                  rw [Option.getD_some, pyOr_falsy _ _ hf]
                  simp only [repoNameOf, hrv, hn]
                | obj ofs2 =>
                  have hok2 : (!(J.obj ofs2).truthy) = true := hok
                  have hf : (J.obj ofs2).truthy = false := by
                    cases hnv : (J.obj ofs2).truthy
                    · rfl
                    · rw [hnv] at hok2; cases hok2
                  rw [Option.getD_some, pyOr_falsy _ _ hf]
                  simp only [repoNameOf, hrv, hn]
          | null =>
            simp only [repoNameOf, hrv]
            rfl
          | bool b =>
            have hok2 : (!(J.bool b).truthy) = true := hok
            have hf : (J.bool b).truthy = false := by
              cases hnv : (J.bool b).truthy
              · rfl
              · rw [hnv] at hok2; cases hok2
            rw [Option.getD_some, pyOr_falsy _ _ hf]
            simp only [repoNameOf, hrv]
            rfl
          | int n =>
            have hok2 : (!(J.int n).truthy) = true := hok
            have hf : (J.int n).truthy = false := by
              cases hnv : (J.int n).truthy
              · rfl
              · rw [hnv] at hok2; cases hok2
            rw [Option.getD_some, pyOr_falsy _ _ hf]
            simp only [repoNameOf, hrv]
            rfl
          | str s2 =>
            have hok2 : (!(J.str s2).truthy) = true := hok
            have hf : (J.str s2).truthy = false := by
              cases hnv : (J.str s2).truthy
              · rfl
              · rw [hnv] at hok2; cases hok2
            rw [Option.getD_some, pyOr_falsy _ _ hf]
            simp only [repoNameOf, hrv]
            rfl
          | arr xs2 =>
            have hok2 : (!(J.arr xs2).truthy) = true := hok
            have hf : (J.arr xs2).truthy = false := by
              cases hnv : (J.arr xs2).truthy
              · rfl
              · rw [hnv] at hok2; cases hok2
            rw [Option.getD_some, pyOr_falsy _ _ hf]
            simp only [repoNameOf, hrv]
            rfl
    show (match (if rl.isEmpty then (.ok true : Except PyErr Bool)
         else
           match pyGet (J.obj fs) "repo" with
           | .error err => .error err
           | .ok rv =>
             match pyGet (pyOr (rv.getD .null) (.obj [])) "name" with
             | .error err => .error err
             | .ok nOpt =>
               match pyOr (nOpt.getD .null) (.str "") with
               | .str s => .ok (rl.contains (pyLower s))
               | _ => .error .attrError) with
      | .error err => (.error err : Except PyErr Bool)
      | .ok rp =>
        if !rp then .ok false
        else if ts.isEmpty then .ok true
        else
          match pyGet (J.obj fs) "type" with
          | .error err => .error err
          | .ok tvOpt =>
            match tvOpt.getD .null with
            | .str s => .ok (ts.contains s)
            | _ => .ok false) = .ok (hourKeep rl ts (J.obj fs))
    rw [hpass]
    cases hA : (rl.isEmpty || rl.contains (pyLower (repoNameOf (J.obj fs))))
    · have hk : hourKeep rl ts (J.obj fs) = false := by
        unfold hourKeep
        rw [hA]
        rfl
      rw [hk]
      rfl
    · by_cases hts : ts.isEmpty
      · have hk : hourKeep rl ts (J.obj fs) = true := by
          unfold hourKeep
          rw [hA, hts]
          rfl
        rw [hk]
        show (if ts.isEmpty then (.ok true : Except PyErr Bool) else _) = _
        rw [if_pos hts]
      · have hts2 : ts.isEmpty = false := Bool.eq_false_iff.mpr hts
        show (if ts.isEmpty then (.ok true : Except PyErr Bool)
              else
                match pyGet (J.obj fs) "type" with
                | .error err => .error err
                | .ok tvOpt =>
                  match tvOpt.getD .null with
                  | .str s => .ok (ts.contains s)
                  | _ => .ok false) = _
        rw [if_neg hts]
        simp only [pyGet]
        cases ht : jGet fs "type" with
        | none =>
          have hk : hourKeep rl ts (J.obj fs) = false := by
            simp only [hourKeep, typeMatches, ht, hA, hts2]
            rfl
          rw [hk]
          rfl
        | some tv =>
          cases tv with
          | str s2 =>
            have hk : hourKeep rl ts (J.obj fs) = ts.contains s2 := by
              simp only [hourKeep, typeMatches, ht, hA, hts2]
              rfl
            rw [hk]
            rfl
          | null =>
            have hk : hourKeep rl ts (J.obj fs) = false := by
              simp only [hourKeep, typeMatches, ht, hA, hts2]
              rfl
            rw [hk]
            rfl
          | bool b2 =>
            have hk : hourKeep rl ts (J.obj fs) = false := by
              simp only [hourKeep, typeMatches, ht, hA, hts2]
              rfl
            rw [hk]
            rfl
          | int n2 =>
            have hk : hourKeep rl ts (J.obj fs) = false := by
              simp only [hourKeep, typeMatches, ht, hA, hts2]
              rfl
            rw [hk]
            rfl
          | arr xs2 =>
            have hk : hourKeep rl ts (J.obj fs) = false := by
              simp only [hourKeep, typeMatches, ht, hA, hts2]
              rfl
            rw [hk]
            rfl
          | obj ofs2 =>
            have hk : hourKeep rl ts (J.obj fs) = false := by
              simp only [hourKeep, typeMatches, ht, hA, hts2]
              rfl
            rw [hk]
            rfl

theorem filterHourLines_spec (rl ts : List String) :
    ∀ lines : List (Option J), (∀ l ∈ lines, lineOK l = true) →
      filterHourLines rl ts lines = .ok ((lines.filterMap id).filter (hourKeep rl ts)) := by
  intro lines
  induction lines with
  | nil => intro _; rfl
  | cons l rest ih =>
    intro hall
    have hrest := ih (fun l2 hl2 => hall l2 (List.mem_cons_of_mem _ hl2))
    cases l with
    | none =>
      simpa [filterHourLines, List.filterMap_cons] using hrest
    | some e =>
      have hok : lineOK (some e) = true := hall (some e) (List.mem_cons_self _ _)
      have hstep := hourFilterStep_spec rl ts e hok
      simp only [filterHourLines, hstep, hrest, List.filterMap_cons, id_eq, List.filter_cons]

theorem fetch_hour_data_ok (rn ts : List String) (lines : List (Option J))
    (h : ∀ l ∈ lines, lineOK l = true) :
    fetch_hour_data (.ok lines) rn ts =
      .ok ((lines.filterMap id).filter (hourKeep (rn.map pyLower) ts)) := by
  simp only [fetch_hour_data, filterHourLines_spec (rn.map pyLower) ts lines h]

/-- C7. Counterexample to the claim that a record with a missing repository
field matches nothing under a non-empty filter: the filter set containing
the empty string is non-empty, yet the repo-less record `{}` survives,
because the code coerces a missing `repo`/`name` to `""` before membership. -/
theorem c7_counterexample :
    fetch_hour_data (.ok [some (J.obj [])]) [""] [] = .ok [J.obj []] ∧
    ([""] : List String) ≠ [] ∧ jGet ([] : List (String × J)) "repo" = none :=
  ⟨rfl, by decide, rfl⟩

/-- C7 (amended). For well-shaped decoded lines the hour fetch returns
exactly the records accepted by `hourKeep`: with a non-empty repository
filter, those whose coerced repository name (missing or falsy `repo`/`name`
coerces to `""`) lowercases to a member of the lowercased filter set — so a
repo-less record is excluded iff `""` is not in the set — intersected with
the exact event-type filter when that set is non-empty. -/
theorem c7_amended (lines : List (Option J)) (rn ts : List String)
    (h : ∀ l ∈ lines, lineOK l = true) :
    fetch_hour_data (.ok lines) rn ts =
      .ok ((lines.filterMap id).filter (hourKeep (rn.map pyLower) ts)) :=
  fetch_hour_data_ok rn ts lines h

theorem c7_witness :
    fetch_hour_data (.ok [some evC2, none, some (J.obj [])]) ["A/B"] [] =
      .ok (([some evC2, none, some (J.obj [])].filterMap id).filter
             (hourKeep (["A/B"].map pyLower) [])) :=
  c7_amended [some evC2, none, some (J.obj [])] ["A/B"] [] (by decide)

theorem dtLt_iff (a b : DTime) : dtLt a b = true ↔
    (a.day < b.day ∨ (a.day = b.day ∧
      (a.hour < b.hour ∨ (a.hour = b.hour ∧ a.sub < b.sub)))) := by
  simp [dtLt]

theorem dtLt_hour_mono (d sub : Nat) (e : DTime) (i j : Nat) (hij : i ≤ j)
    (hj : dtLt ⟨d, j, sub⟩ e = true) : dtLt ⟨d, i, sub⟩ e = true := by
  rw [dtLt_iff] at hj ⊢
  simp only at hj ⊢
  omega

theorem takeWhile_eq_filter {α : Type} (g : α → Bool) :
    ∀ l : List α, l.Pairwise (fun a b => g b = true → g a = true) →
      l.takeWhile g = l.filter g := by
  intro l
  induction l with
  | nil => intro _; rfl
  | cons a t ih =>
    intro hp
    rw [List.pairwise_cons] at hp
    cases hg : g a with
    | true => simp [List.takeWhile_cons, List.filter_cons, hg, ih hp.2]
    | false =>
      have hnil : t.filter g = [] := by
        rw [List.filter_eq_nil_iff]
        intro b hb hgb
        rw [hp.1 b hb hgb] at hg
        exact Bool.noConfusion hg
      simp [List.takeWhile_cons, List.filter_cons, hg, hnil]

theorem map_filter_eq_filterMap {α β : Type} (g : α → Bool) (F : α → β) :
    ∀ l : List α,
      (l.filter g).map F = l.filterMap fun a => if g a then some (F a) else none := by
  intro l
  induction l with
  | nil => rfl
  | cons a t ih =>
    cases hg : g a with
    | true => simp [List.filter_cons, List.filterMap_cons, hg, ih]
    | false => simp [List.filter_cons, List.filterMap_cons, hg, ih]

theorem dtLt_false_iff (a b : DTime) : dtLt a b = false ↔
    ¬ (a.day < b.day ∨ (a.day = b.day ∧
      (a.hour < b.hour ∨ (a.hour = b.hour ∧ a.sub < b.sub)))) := by
  rw [← dtLt_iff]
  cases dtLt a b <;> simp

theorem attemptedHours_nil (s e : DTime) (h : dtLt s e = false) :
    attemptedHours s e = [] := by
  have hnp := (dtLt_false_iff s e).mp h
  simp only at hnp
  rcases Nat.lt_or_ge e.day s.day with hlt | hge
  · have h0 : e.day + 1 - s.day = 0 := by omega
    unfold attemptedHours
    rw [h0]
    rfl
  · have h1 : e.day + 1 - s.day = 1 := by omega
    have hg : dtLt ⟨s.day, s.hour, s.sub⟩ e = false := h
    unfold attemptedHours
    rw [h1]
    simp [hg]

theorem attemptedHours_cons (s e : DTime) (h : dtLt s e = true) :
    attemptedHours s e =
      ((List.range 24).filterMap fun hr =>
        if dtLt ⟨s.day, hr, s.sub⟩ e then some (s.day, hr) else none) ++
      attemptedHours ⟨s.day + 1, s.hour, s.sub⟩ e := by
  have hgp := (dtLt_iff s e).mp h
  simp only at hgp
  have hcount : e.day + 1 - s.day = (e.day + 1 - (s.day + 1)) + 1 := by omega
  have hg : dtLt ⟨s.day, s.hour, s.sub⟩ e = true := h
  unfold attemptedHours
  rw [hcount, List.range'_succ, List.flatMap_cons, hg]
  rfl

theorem day_block_map (t : Transport) (rn ts : List String) (d sub : Nat) (e : DTime) :
    (((List.range 24).takeWhile fun hr => dtLt ⟨d, hr, sub⟩ e).map fun hr =>
        ((d, hr), attemptResult t rn ts d hr)) =
      ((List.range 24).filterMap fun hr =>
          if dtLt ⟨d, hr, sub⟩ e then some (d, hr) else none).map
        fun dh => (dh, attemptResult t rn ts dh.1 dh.2) := by
  have hpw : (List.range 24).Pairwise
      (fun a b => dtLt ⟨d, b, sub⟩ e = true → dtLt ⟨d, a, sub⟩ e = true) :=
    (List.pairwise_lt_range 24).imp fun hab hb =>
      dtLt_hour_mono d sub e _ _ (Nat.le_of_lt hab) hb
  rw [takeWhile_eq_filter _ _ hpw, map_filter_eq_filterMap, List.map_filterMap]
  congr 1
  funext hr
  cases hg : dtLt ⟨d, hr, sub⟩ e <;> simp [hg]

theorem fetch_hour_cases (t : Transport) (rn ts : List String) (hok : WellShaped t)
    (d hr : Nat) :
    fetch_hour_data (t d hr) rn ts =
      match t d hr with
      | .error err => .error (.transport err)
      | .ok ls => .ok ((ls.filterMap id).filter (hourKeep (rn.map pyLower) ts)) := by
  cases ht : t d hr with
  | error err => rfl
  | ok ls => exact fetch_hour_data_ok rn ts ls (hok d hr ls ht)

theorem attemptResult_eq (t : Transport) (rn ts : List String) (hok : WellShaped t)
    (d hr : Nat) :
    attemptResult t rn ts d hr =
      match t d hr with
      | .error _ => none
      | .ok ls => some ((ls.filterMap id).filter (hourKeep (rn.map pyLower) ts)) := by
  unfold attemptResult
  rw [fetch_hour_cases t rn ts hok d hr]
  cases t d hr <;> rfl

theorem fetchDay_spec (t : Transport) (rn ts : List String) (d sub : Nat) (e : DTime)
    (hok : WellShaped t) : ∀ hs : List Nat,
    fetchDay t rn ts d sub e hs =
      .ok (((hs.takeWhile fun hr => dtLt ⟨d, hr, sub⟩ e).map fun hr =>
              ((d, hr), attemptResult t rn ts d hr)),
           !hs.all fun hr => dtLt ⟨d, hr, sub⟩ e) := by
  intro hs
  induction hs with
  | nil => rfl
  | cons hr hs ih =>
    simp only [fetchDay, List.takeWhile_cons, List.all_cons]
    cases hg : dtLt ⟨d, hr, sub⟩ e with
    | false => simp
    | true =>
      rw [fetch_hour_cases t rn ts hok d hr]
      have ha := attemptResult_eq t rn ts hok d hr
      cases ht : t d hr with
      | error err =>
        simp only [ht] at ha
        simp [ih, ha]
      | ok ls =>
        simp only [ht] at ha
        simp [ih, ha]

theorem fetchRangeGo_spec (t : Transport) (rn ts : List String) (e : DTime)
    (hok : WellShaped t) : ∀ (fuel : Nat) (cur : DTime),
    e.day + 1 - cur.day ≤ fuel →
    fetchRangeGo t rn ts e fuel cur = .ok (rangeTrace t rn ts cur e) := by
  intro fuel
  induction fuel with
  | zero =>
    intro cur hf
    have hff : dtLt cur e = false := by
      rw [dtLt_false_iff]
      omega
    simp [fetchRangeGo, rangeTrace, attemptedHours_nil cur e hff]
  | succ fuel ih =>
    intro cur hf
    simp only [fetchRangeGo]
    cases hg : dtLt cur e with
    | false =>
      simp [rangeTrace, attemptedHours_nil cur e hg]
    | true =>
      have hgp := (dtLt_iff cur e).mp hg
      simp only at hgp
      have hsp : rangeTrace t rn ts cur e =
          (((List.range 24).takeWhile fun hr => dtLt ⟨cur.day, hr, cur.sub⟩ e).map fun hr =>
              ((cur.day, hr), attemptResult t rn ts cur.day hr)) ++
            rangeTrace t rn ts ⟨cur.day + 1, cur.hour, cur.sub⟩ e := by
        simp only [rangeTrace]
        rw [attemptedHours_cons cur e hg, List.map_append, ← day_block_map]
      rw [fetchDay_spec t rn ts cur.day cur.sub e hok (List.range 24), hsp]
      cases hall : (List.range 24).all fun hr => dtLt ⟨cur.day, hr, cur.sub⟩ e with
      | true =>
        have hf2 : e.day + 1 - (cur.day + 1) ≤ fuel := by omega
        rw [ih ⟨cur.day + 1, cur.hour, cur.sub⟩ hf2]
        simp
      | false =>
        rw [List.all_eq_false] at hall
        obtain ⟨hr0, _, hng⟩ := hall
        have hngp := (dtLt_false_iff ⟨cur.day, hr0, cur.sub⟩ e).mp
          (Bool.eq_false_iff.mpr hng)
        simp only at hngp
        have hnext : dtLt ⟨cur.day + 1, cur.hour, cur.sub⟩ e = false := by
          rw [dtLt_false_iff]
          simp only
          omega
        rw [show rangeTrace t rn ts ⟨cur.day + 1, cur.hour, cur.sub⟩ e = [] from by
          simp [rangeTrace, attemptedHours_nil _ _ hnext]]
        simp

theorem fetch_range_trace (t : Transport) (rn ts : List String) (s e : DTime)
    (hok : WellShaped t) :
    fetch_date_range t rn ts s e = .ok (rangeTrace t rn ts s e) :=
  fetchRangeGo_spec t rn ts e hok (e.day + 1 - s.day) s (Nat.le_refl _)

theorem mem_dayF (e : DTime) (ssub d : Nat) (a : Nat × Nat)
    (ha : a ∈ ((List.range 24).filterMap fun hr =>
            if dtLt ⟨d, hr, ssub⟩ e then some (d, hr) else none)) :
    a.1 = d := by
  rw [List.mem_filterMap] at ha
  obtain ⟨hr, _, hh⟩ := ha
  by_cases hg : dtLt ⟨d, hr, ssub⟩ e = true
  · rw [if_pos hg] at hh
    injection hh with hh2
    rw [← hh2]
  · rw [if_neg hg] at hh
    cases hh

theorem pairwise_flat (e : DTime) (shour ssub : Nat) :
    ∀ (n d0 : Nat), List.Pairwise lexLt ((List.range' d0 n).flatMap fun d =>
      if dtLt ⟨d, shour, ssub⟩ e then
        (List.range 24).filterMap fun hr =>
          if dtLt ⟨d, hr, ssub⟩ e then some (d, hr) else none
      else []) := by
  intro n
  induction n with
  | zero => intro d0; exact List.Pairwise.nil
  | succ n ih =>
    intro d0
    rw [List.range'_succ, List.flatMap_cons, List.pairwise_append]
    refine ⟨?_, ih (d0 + 1), ?_⟩
    · cases hgd : dtLt ⟨d0, shour, ssub⟩ e with
      | false => simp
      | true =>
        simp only [if_true]
        rw [List.pairwise_filterMap]
        refine (List.pairwise_lt_range 24).imp ?_
        intro a b hab x hx y hy
        by_cases hga : dtLt ⟨d0, a, ssub⟩ e = true
        · by_cases hgb : dtLt ⟨d0, b, ssub⟩ e = true
          · rw [if_pos hga] at hx
            rw [if_pos hgb] at hy
            cases hx
            cases hy
            exact Or.inr ⟨rfl, hab⟩
          · rw [if_neg hgb] at hy
            cases hy
        · rw [if_neg hga] at hx
          cases hx
    · intro a ha b hb
      have ha1 : a.1 = d0 := by
        by_cases hgd : dtLt ⟨d0, shour, ssub⟩ e = true
        · rw [if_pos hgd] at ha
          exact mem_dayF e ssub d0 a ha
        · rw [if_neg hgd] at ha
          cases ha
      rw [List.mem_flatMap] at hb
      obtain ⟨d, hd, hbd⟩ := hb
      have hd1 : d0 + 1 ≤ d := (List.mem_range'_1.mp hd).1
      have hb1 : b.1 = d := by
        by_cases hgd : dtLt ⟨d, shour, ssub⟩ e = true
        · rw [if_pos hgd] at hbd
          exact mem_dayF e ssub d b hbd
        · rw [if_neg hgd] at hbd
          cases hbd
      exact Or.inl (by omega)

theorem pairwise_attempted (s e : DTime) :
    List.Pairwise lexLt (attemptedHours s e) := by
  unfold attemptedHours
  exact pairwise_flat e s.hour s.sub (e.day + 1 - s.day) s.day

theorem pairwise_rangeTrace (t : Transport) (rn ts : List String) (s e : DTime) :
    List.Pairwise (fun a b : Attempt => lexLt a.1 b.1) (rangeTrace t rn ts s e) := by
  unfold rangeTrace
  rw [List.pairwise_map]
  exact pairwise_attempted s e

/-- C3. Counterexample to "no hour before `start` is fetched": with
`start = (day 0, 13:00)` and `end = (day 0, 15:00)` the scan attempts hours
0 through 14 of day 0 — the inner loop always restarts at hour 0, so the
twelve hours before `start` are fetched too. -/
theorem c3_counterexample :
    (fetch_date_range (fun _ _ => .ok []) [] [] ⟨0, 13, 0⟩ ⟨0, 15, 0⟩).map
        (List.map Prod.fst) =
      .ok ((List.range 15).map fun h => (0, h)) ∧
    dtLt ⟨0, 0, 0⟩ ⟨0, 13, 0⟩ = true := ⟨rfl, rfl⟩

/-- C3 (amended). For a well-shaped transport the range fetch never raises
and attempts exactly `attemptedHours start end` in strictly chronological
order: every hour `h < end` of each scanned day, starting from hour 0 of
`start`'s day (hours of the first day before `start` included), scanning
day `d` only while `(d, start.hour) < end` (in-range hours of the last day
at or after `start.hour` are dropped when the day guard fails). -/
theorem c3_amended (t : Transport) (rn ts : List String) (s e : DTime)
    (hok : WellShaped t) :
    fetch_date_range t rn ts s e = .ok (rangeTrace t rn ts s e) ∧
    List.Pairwise (fun a b : Attempt => lexLt a.1 b.1) (rangeTrace t rn ts s e) :=
  ⟨fetch_range_trace t rn ts s e hok, pairwise_rangeTrace t rn ts s e⟩

theorem c3_witness :
    fetch_date_range (fun _ _ => .ok []) [] [] ⟨0, 13, 0⟩ ⟨0, 15, 0⟩ =
      .ok (rangeTrace (fun _ _ => .ok []) [] [] ⟨0, 13, 0⟩ ⟨0, 15, 0⟩) ∧
    List.Pairwise (fun a b : Attempt => lexLt a.1 b.1)
      (rangeTrace (fun _ _ => .ok []) [] [] ⟨0, 13, 0⟩ ⟨0, 15, 0⟩) :=
  c3_amended (fun _ _ => .ok []) [] [] ⟨0, 13, 0⟩ ⟨0, 15, 0⟩
    (by intro d h ls hls l hl; cases hls; cases hl)

/-- C6. Counterexample to "every subsequent in-range hour is still
attempted": with `start = (day 0, 10:00)` and `end = (day 1, 05:00)` and a
transport failing only at day 0 hour 3, the failure is indeed recorded as a
skip (`none`) with no exception, but hour 0 of day 1 — in range and after
the failing hour — is never attempted: the day loop's `while` guard
compares `end` against day 1 at `start`'s hour (10:00), which is not before
`end`, so the whole last day is dropped. -/
theorem c6_counterexample :
    ((fetch_date_range c6T [] [] ⟨0, 10, 0⟩ ⟨1, 5, 0⟩).map fun as =>
      (as.length, as.get? 3, (as.map Prod.fst).contains (1, 0))) =
      .ok (24, some ((0, 3), none), false) ∧
    dtLt ⟨0, 10, 0⟩ ⟨1, 0, 0⟩ = true ∧ dtLt ⟨1, 0, 0⟩ ⟨1, 5, 0⟩ = true :=
  ⟨rfl, rfl, rfl⟩

/-- C6 (amended). For a well-shaped transport, transport failures are
skip-and-log at hour granularity: the range fetch returns normally (no
exception), the list of attempted hours equals `attemptedHours start end`
regardless of which hours fail, and an attempted hour records `none`
exactly when the transport failed for it. (The attempted set itself
excludes the last day's hours at or after `start.hour`, failure or not.) -/
theorem c6_amended (t : Transport) (rn ts : List String) (s e : DTime)
    (hok : WellShaped t) :
    ∃ as, fetch_date_range t rn ts s e = .ok as ∧
      as.map Prod.fst = attemptedHours s e ∧
      ∀ dh o, (dh, o) ∈ as → (o = none ↔ ∃ err, t dh.1 dh.2 = .error err) := by
  refine ⟨rangeTrace t rn ts s e, fetch_range_trace t rn ts s e hok, ?_, ?_⟩
  · unfold rangeTrace
    rw [List.map_map]
    have hid : (Prod.fst ∘ fun dh : Nat × Nat => (dh, attemptResult t rn ts dh.1 dh.2)) = id := by
      funext dh
      rfl
    rw [hid, List.map_id]
  · intro dh o hmem
    unfold rangeTrace at hmem
    rw [List.mem_map] at hmem
    obtain ⟨dh0, _, heq⟩ := hmem
    injection heq with h1 h2
    subst h1
    rw [← h2, attemptResult_eq t rn ts hok dh0.1 dh0.2]
    cases ht : t dh0.1 dh0.2 with
    | error err => simp
    | ok ls => simp

theorem c6_witness :
    ∃ as, fetch_date_range c6T [] [] ⟨0, 10, 0⟩ ⟨1, 5, 0⟩ = .ok as ∧
      as.map Prod.fst = attemptedHours ⟨0, 10, 0⟩ ⟨1, 5, 0⟩ ∧
      ∀ dh o, (dh, o) ∈ as → (o = none ↔ ∃ err, c6T dh.1 dh.2 = .error err) :=
  c6_amended c6T [] [] ⟨0, 10, 0⟩ ⟨1, 5, 0⟩ (by
    intro d h ls hls l hl
    unfold c6T at hls
    by_cases hc : (d == 0 && h == 3) = true
    · rw [if_pos hc] at hls
      cases hls
    · rw [if_neg hc] at hls
      cases hls
      cases hl)

/-! ## C9: the workflow never mutates the caller's record -/

theorem pureStep_ok (f : Heap → CtxH → Except PyErr (Option CtxH))
    (hf : ∀ h ctx ctx2, f h ctx = .ok (some ctx2) → ctx2.event = ctx.event) :
    StepOkH (pureStep f) := by
  intro h ctx h2 r hs
  unfold pureStep at hs
  cases hfc : f h ctx with
  | error e =>
    simp only [hfc] at hs
    cases hs
  | ok rr =>
    simp only [hfc] at hs
    cases hs
    refine ⟨⟨[], by simp⟩, ?_⟩
    intro ctx2 hr
    rw [hr] at hfc
    exact Or.inl (hf h ctx ctx2 hfc)

theorem allocStep_ok (f : Heap → CtxH → Except PyErr DictH) :
    StepOkH (allocStep f) := by
  intro h ctx h2 r hs
  unfold allocStep at hs
  cases hfc : f h ctx with
  | error e =>
    simp only [hfc] at hs
    cases hs
  | ok d =>
    simp only [hfc] at hs
    cases hs
    refine ⟨⟨[d], rfl⟩, ?_⟩
    intro ctx2 hr
    cases hr
    exact Or.inr (Nat.le_refl _)

theorem stepOk_filter_bot : StepOkH filter_botH :=
  pureStep_ok _ (by
    intro h ctx ctx2 heq
    try dsimp only at heq
    iterate 8 (all_goals try split at heq)
    all_goals cases heq <;> rfl)

theorem stepOk_extract_text : StepOkH extract_textH :=
  pureStep_ok _ (by
    intro h ctx ctx2 heq
    try dsimp only at heq
    iterate 8 (all_goals try split at heq)
    all_goals cases heq <;> rfl)

theorem stepOk_strip_code : StepOkH strip_codeH :=
  pureStep_ok _ (by
    intro h ctx ctx2 heq
    try dsimp only at heq
    iterate 8 (all_goals try split at heq)
    all_goals cases heq <;> rfl)

theorem stepOk_strip_images : StepOkH strip_imagesH :=
  pureStep_ok _ (by
    intro h ctx ctx2 heq
    try dsimp only at heq
    iterate 8 (all_goals try split at heq)
    all_goals cases heq <;> rfl)

theorem stepOk_strip_diff : StepOkH strip_diffH :=
  pureStep_ok _ (by
    intro h ctx ctx2 heq
    try dsimp only at heq
    iterate 8 (all_goals try split at heq)
    all_goals cases heq <;> rfl)

theorem stepOk_normalize : StepOkH normalize_lowercaseH :=
  pureStep_ok _ (by
    intro h ctx ctx2 heq
    try dsimp only at heq
    iterate 8 (all_goals try split at heq)
    all_goals cases heq <;> rfl)

theorem stepOk_tokenize : StepOkH tokenize_textH :=
  pureStep_ok _ (by
    intro h ctx ctx2 heq
    try dsimp only at heq
    iterate 8 (all_goals try split at heq)
    all_goals cases heq <;> rfl)

theorem stepOk_min_tokens (n : Nat) : StepOkH (filter_min_tokensH n) :=
  pureStep_ok _ (by
    intro h ctx ctx2 heq
    try dsimp only at heq
    iterate 8 (all_goals try split at heq)
    all_goals cases heq <;> rfl)

theorem defaultSteps_ok : ∀ s ∈ defaultStepsH, StepOkH s := by
  intro s hs
  simp only [defaultStepsH, List.mem_cons, List.not_mem_nil, or_false] at hs
  rcases hs with rfl | rfl | rfl | rfl | rfl | rfl | rfl | rfl | rfl | rfl
  · exact stepOk_filter_bot
  · exact stepOk_extract_text
  · exact stepOk_strip_code
  · exact stepOk_strip_images
  · exact stepOk_strip_diff
  · exact stepOk_normalize
  · exact stepOk_tokenize
  · exact stepOk_min_tokens 2
  · exact allocStep_ok _
  · exact allocStep_ok _

theorem runStepsH_frame : ∀ (l : List StepH), (∀ s ∈ l, StepOkH s) →
    ∀ h ctx h2 r, runStepsH l h ctx = .ok (h2, r) →
      (∃ ext, h2 = h ++ ext) ∧ ∀ b, r = some b → b = ctx.event ∨ h.length ≤ b := by
  intro l
  induction l with
  | nil =>
    intro _ h ctx h2 r hrun
    cases hrun
    exact ⟨⟨[], by simp⟩, fun b hb => by cases hb; exact Or.inl rfl⟩
  | cons st rest ih =>
    intro hall h ctx h2 r hrun
    have hst : StepOkH st := hall st (List.mem_cons_self _ _)
    have hrest : ∀ s ∈ rest, StepOkH s := fun s hs => hall s (List.mem_cons_of_mem _ hs)
    unfold runStepsH at hrun
    cases hs1 : st h ctx with
    | error e =>
      simp only [hs1] at hrun
      cases hrun
    | ok pr =>
      obtain ⟨h1, r1⟩ := pr
      cases r1 with
      | none =>
        simp only [hs1] at hrun
        injection hrun with hp
        injection hp with hpa hpb
        subst hpa
        subst hpb
        obtain ⟨hext, _⟩ := hst h ctx h1 none hs1
        exact ⟨hext, fun b hb => by cases hb⟩
      | some ctx2 =>
        simp only [hs1] at hrun
        obtain ⟨⟨ext1, hext1⟩, hev1⟩ := hst h ctx h1 (some ctx2) hs1
        obtain ⟨⟨ext2, hext2⟩, hev2⟩ := ih hrest h1 ctx2 h2 r hrun
        constructor
        · exact ⟨ext1 ++ ext2, by rw [hext2, hext1, List.append_assoc]⟩
        · intro b hb
          rcases hev2 b hb with hbe | hble
          · rcases hev1 ctx2 rfl with hce | hcle
            · exact Or.inl (hbe.trans hce)
            · exact Or.inr (by rw [hbe]; exact hcle)
          · have hlen : h.length ≤ h1.length := by
              rw [hext1, List.length_append]
              omega
            exact Or.inr (Nat.le_trans hlen hble)

/-- C9: running the default workflow never mutates any pre-existing heap
dict — the caller's event dict and every nested dict it references survive
at their addresses unchanged — and a returned cleaned record lives at a
fresh address allocated during the run, so it is a fresh object. -/
theorem c9_no_mutation (h : Heap) (a0 : Nat) (h2 : Heap) (res : Option Nat)
    (hrun : runWorkflowH defaultStepsH h a0 = .ok (h2, res)) :
    (∀ i, i < h.length → h2.get? i = h.get? i) ∧
    ∀ b, res = some b → h.length ≤ b := by
  obtain ⟨⟨ext, hext⟩, hev⟩ := runStepsH_frame defaultStepsH defaultSteps_ok
    (h ++ [hget h a0]) { event := h.length } h2 res hrun
  constructor
  · intro i hi
    have hext2 : h2 = h ++ ([hget h a0] ++ ext) := by
      rw [hext, List.append_assoc]
    rw [hext2]
    rw [List.get?_eq_getElem?, List.get?_eq_getElem?, List.getElem?_append_left hi]
  · intro b hb
    rcases hev b hb with hbe | hble
    · exact Nat.le_of_eq hbe.symm
    · have hlen : h.length ≤ (h ++ [hget h a0]).length := by simp
      exact Nat.le_trans hlen hble

theorem c9_witness :
    (∀ i, i < ([[]] : Heap).length → ([[], []] : Heap).get? i = ([[]] : Heap).get? i) ∧
    ∀ b, (none : Option Nat) = some b → ([[]] : Heap).length ≤ b :=
  c9_no_mutation [[]] 0 [[], []] none rfl
